import Mathlib

/-!
# Verification of the xml_json_yaml_validator tool

A shallow embedding of `src/xml_json_yaml_validator.py` over `List Char`
(the model of Python `str`), together with proofs about the claims of the
specification.  The program delegates parsing to external libraries
(`json`, `yaml`, `xml.etree`); the JSON library is modelled concretely by a
recursive-descent parser and an `indent=2` serializer restricted to integer
numerals and the simple string escapes (no `\uXXXX`, no floats, no
`NaN/Infinity`); the YAML and XML libraries are modelled abstractly where
the claims only concern the code's try/except structure.
-/

namespace XJYV

/-- Python strings are modelled as lists of unicode scalar values. -/
abbrev Str := List Char

/-- Shorthand turning a Lean string literal into the model type. -/
def S (s : String) : Str := s.data

/-- Left brace character (spelled via its code point). -/
def lbrace : Char := Char.ofNat 123

/-- Right brace character (spelled via its code point). -/
def rbrace : Char := Char.ofNat 125

/-- Characters that Python `str.splitlines` treats as line boundaries. -/
def isLineBreak (c : Char) : Bool :=
  c == '\n' || c == '\r' || c == '\x0b' || c == '\x0c' ||
  c == Char.ofNat 0x1c || c == Char.ofNat 0x1d || c == Char.ofNat 0x1e ||
  c == Char.ofNat 0x85 || c == Char.ofNat 0x2028 || c == Char.ofNat 0x2029

/-- Characters for which Python `str.isspace` holds (`str.strip` strips these). -/
def pyIsSpace (c : Char) : Bool :=
  c == ' ' || c == '\t' || c == '\n' || c == '\r' || c == '\x0b' || c == '\x0c' ||
  c == Char.ofNat 0x1c || c == Char.ofNat 0x1d || c == Char.ofNat 0x1e ||
  c == Char.ofNat 0x1f || c == Char.ofNat 0x85 || c == Char.ofNat 0xa0 ||
  c == Char.ofNat 0x1680 ||
  (0x2000 ≤ c.toNat && c.toNat ≤ 0x200a) ||
  c == Char.ofNat 0x2028 || c == Char.ofNat 0x2029 ||
  c == Char.ofNat 0x202f || c == Char.ofNat 0x205f || c == Char.ofNat 0x3000

/-- Model of Python `str.strip()`: drop `isspace` characters from both ends. -/
def pyStrip (s : Str) : Str :=
  ((s.dropWhile pyIsSpace).reverse.dropWhile pyIsSpace).reverse

/-- Model of Python `str.lower()` (ASCII case folding suffices here). -/
def pyLower (s : Str) : Str := s.map Char.toLower

/-- Fuel-bounded worker for `str.splitlines`; each step consumes at least
one character, so any fuel above the length never hits the base case. -/
def pySplitlinesF : Nat → Str → List Str
  | 0, _ => []
  | _ + 1, [] => []
  | fuel + 1, c :: cs =>
    match (c :: cs).drop ((c :: cs).takeWhile (fun d => !(isLineBreak d))).length with
    | [] => [(c :: cs).takeWhile (fun d => !(isLineBreak d))]
    | d :: r0 =>
      ((c :: cs).takeWhile (fun d => !(isLineBreak d))) ::
      (if d = '\r' then
        match r0 with
        | [] => pySplitlinesF fuel []
        | e :: r1 =>
          if e = '\n' then pySplitlinesF fuel r1 else pySplitlinesF fuel (e :: r1)
      else pySplitlinesF fuel r0)

/-- Model of Python `str.splitlines()`. -/
def pySplitlines (s : Str) : List Str := pySplitlinesF (s.length + 1) s

/-- Model of `'\n'.join(...)`: join with a separator list. -/
def sjoin (sep : Str) (ls : List Str) : Str := List.intercalate sep ls

/-- `remove_unicode_symbols`: `re.sub(r'[^\x00-\x7F]+', '', text)` keeps
exactly the characters with code point at most `0x7F`. -/
def remove_unicode_symbols (s : Str) : Str := s.filter (fun c => c.toNat ≤ 0x7F)

/-! ## Model of the Python `json` library

`json.loads` is modelled by a recursive-descent parser over `List Char`
and `json.dumps(obj, indent=2)` by a serializer.  The model covers the
JSON grammar the claims exercise: integer numerals (floats, `NaN` and
`Infinity` are not modelled), the simple backslash escapes (no `\uXXXX`),
and raw string characters other than `"` and `\`. -/

/-- JSON values as produced by the modelled `json.loads`. -/
inductive JVal where
  | null : JVal
  | bool (b : Bool) : JVal
  | num (n : Int) : JVal
  | str (s : List Char) : JVal
  | arr (xs : List JVal) : JVal
  | obj (ms : List (List Char × JVal)) : JVal

mutual

/-- Node-counting size used as parser fuel bound. -/
def sizeJ : JVal → Nat
  | .null => 1
  | .bool _ => 1
  | .num _ => 1
  | .str _ => 1
  | .arr xs => 1 + sizeL xs
  | .obj ms => 1 + sizeM ms
termination_by v => sizeOf v
decreasing_by all_goals (simp_wf <;> omega)

/-- Size of an array body. -/
def sizeL : List JVal → Nat
  | [] => 1
  | x :: tl => 1 + sizeJ x + sizeL tl
termination_by xs => sizeOf xs
decreasing_by all_goals (simp_wf <;> omega)

/-- Size of an object body. -/
def sizeM : List (List Char × JVal) → Nat
  | [] => 1
  | (k, v) :: tl => 1 + sizeJ v + sizeM tl
termination_by ms => sizeOf ms
decreasing_by all_goals (simp_wf <;> omega)

end

/-- JSON whitespace skipped by the Python scanner: space, tab, LF, CR. -/
def jsonWs (c : Char) : Bool := c == ' ' || c == '\t' || c == '\n' || c == '\r'

/-- Skip JSON whitespace. -/
def skipWs : Str → Str
  | [] => []
  | c :: cs => if jsonWs c then skipWs cs else c :: cs

/-- The backslash escapes accepted by the modelled string scanner. -/
def escChar (c : Char) : Option Char :=
  match c with
  | '"' => some '"'
  | '\\' => some '\\'
  | '/' => some '/'
  | 'b' => some '\x08'
  | 'f' => some '\x0c'
  | 'n' => some '\n'
  | 'r' => some '\r'
  | 't' => some '\t'
  | _ => none

/-- Scan a JSON string body (the opening quote is already consumed);
returns the decoded string and the input after the closing quote. -/
def parseStrBody : Str → Except Str (List Char × Str)
  | [] => .error (S "Unterminated string")
  | c :: cs =>
    if c == '"' then .ok ([], cs)
    else if c == '\\' then
      match cs with
      | [] => .error (S "Unterminated string")
      | e :: cs2 =>
        match escChar e with
        | some d =>
          match parseStrBody cs2 with
          | .ok (s, r) => .ok (d :: s, r)
          | .error msg => .error msg
        | none => .error (S "Invalid escape")
    else
      match parseStrBody cs with
      | .ok (s, r) => .ok (c :: s, r)
      | .error msg => .error msg

/-- Decimal digit value of a digit character. -/
def digitVal (c : Char) : Nat := c.toNat - '0'.toNat

/-- Fold a digit run onto an accumulator, `acc * 10 + digit` per step. -/
def foldDigits (acc : Nat) (ds : List Char) : Nat :=
  ds.foldl (fun a c => a * 10 + digitVal c) acc

/-- Scan an unsigned JSON integer: `0` stops immediately (the grammar
forbids leading zeros), a nonzero digit takes the maximal digit run. -/
def parseUInt : Str → Except Str (Nat × Str)
  | [] => .error (S "Expecting value")
  | c :: cs =>
    if c = '0' then .ok (0, cs)
    else if c.isDigit then
      .ok (foldDigits (digitVal c) (cs.takeWhile Char.isDigit),
        cs.drop (cs.takeWhile Char.isDigit).length)
    else .error (S "Expecting value")

/-- Scan a JSON integer with optional leading minus sign. -/
def parseNumAt : Str → Except Str (Int × Str)
  | [] => .error (S "Expecting value")
  | c :: cs =>
    if c = '-' then
      match parseUInt cs with
      | .ok (n, r) => .ok (-(n : Int), r)
      | .error msg => .error msg
    else
      match parseUInt (c :: cs) with
      | .ok (n, r) => .ok ((n : Int), r)
      | .error msg => .error msg

/-- Scan the items of a nonempty JSON array up to and including `]`,
parsing each item with the supplied value parser `pv`; the fuel bounds
the number of items. -/
def parseItemsF (pv : Str → Except Str (JVal × Str)) : Nat → Str → Except Str (List JVal × Str)
  | 0, _ => .error (S "Nesting fuel exhausted")
  | g + 1, s =>
    match pv s with
    | .error msg => .error msg
    | .ok (v, r) =>
      match skipWs r with
      | [] => .error (S "Expecting comma delimiter")
      | c :: r2 =>
        if c = ',' then
          match parseItemsF pv g r2 with
          | .ok (vs, r3) => .ok (v :: vs, r3)
          | .error msg => .error msg
        else if c = ']' then .ok ([v], r2)
        else .error (S "Expecting comma delimiter")

/-- Scan the members of a nonempty JSON object up to and including the
closing brace, parsing each value with `pv`. -/
def parseMembersF (pv : Str → Except Str (JVal × Str)) :
    Nat → Str → Except Str (List (List Char × JVal) × Str)
  | 0, _ => .error (S "Nesting fuel exhausted")
  | g + 1, s =>
    match skipWs s with
    | '"' :: cs =>
      match parseStrBody cs with
      | .error msg => .error msg
      | .ok (k, r1) =>
        match skipWs r1 with
        | ':' :: r2 =>
          match pv r2 with
          | .error msg => .error msg
          | .ok (v, r3) =>
            match skipWs r3 with
            | [] => .error (S "Expecting comma delimiter")
            | c :: r4 =>
              if c = ',' then
                match parseMembersF pv g r4 with
                | .ok (ms, r5) => .ok ((k, v) :: ms, r5)
                | .error msg => .error msg
              else if c = rbrace then .ok ([(k, v)], r4)
              else .error (S "Expecting comma delimiter")
        | _ => .error (S "Expecting colon delimiter")
    | _ => .error (S "Expecting property name")

/-- Recursive-descent scanner for a JSON value; `fuel` bounds nesting. -/
def parseVal : Nat → Str → Except Str (JVal × Str)
  | 0, _ => .error (S "Nesting fuel exhausted")
  | f + 1, s =>
    match skipWs s with
    | [] => .error (S "Expecting value")
    | c :: cs =>
      if c = lbrace then
        match skipWs cs with
        | [] => .error (S "Expecting property name")
        | c2 :: r =>
          if c2 = rbrace then .ok (.obj [], r)
          else
            match parseMembersF (parseVal f) f (c2 :: r) with
            | .ok (ms, r2) => .ok (.obj ms, r2)
            | .error msg => .error msg
      else if c = '[' then
        match skipWs cs with
        | [] => .error (S "Expecting value")
        | c2 :: r =>
          if c2 = ']' then .ok (.arr [], r)
          else
            match parseItemsF (parseVal f) f (c2 :: r) with
            | .ok (vs, r2) => .ok (.arr vs, r2)
            | .error msg => .error msg
      else if c = '"' then
        match parseStrBody cs with
        | .ok (s2, r) => .ok (.str s2, r)
        | .error msg => .error msg
      else if c = 't' then
        if (S "rue").isPrefixOf cs then .ok (.bool true, cs.drop 3)
        else .error (S "Expecting value")
      else if c = 'f' then
        if (S "alse").isPrefixOf cs then .ok (.bool false, cs.drop 4)
        else .error (S "Expecting value")
      else if c = 'n' then
        if (S "ull").isPrefixOf cs then .ok (.null, cs.drop 3)
        else .error (S "Expecting value")
      else if c = '-' ∨ c.isDigit then
        match parseNumAt (c :: cs) with
        | .ok (n, r) => .ok (.num n, r)
        | .error msg => .error msg
      else .error (S "Expecting value")

/-- Model of `json.loads`: scan one value, then require only whitespace
to remain. -/
def json_loads (s : Str) : Except Str JVal :=
  match parseVal (s.length + 1) s with
  | .error msg => .error msg
  | .ok (v, rest) =>
    match skipWs rest with
    | [] => .ok v
    | _ => .error (S "Extra data")

/-- Indentation padding of `n` spaces. -/
def pad (n : Nat) : Str := List.replicate n ' '

/-- Fuel-bounded worker producing the decimal digits of a natural
number; fuel above the number itself never reaches the base case. -/
def natReprF : Nat → Nat → Str
  | 0, _ => []
  | fuel + 1, n =>
    if n < 10 then [Char.ofNat ('0'.toNat + n)]
    else natReprF fuel (n / 10) ++ [Char.ofNat ('0'.toNat + n % 10)]

/-- Decimal digits of a natural number. -/
def natRepr (n : Nat) : Str := natReprF (n + 1) n

/-- Serialize a JSON integer. -/
def serNum (n : Int) : Str :=
  if n < 0 then '-' :: natRepr n.natAbs else natRepr n.natAbs

/-- Escape one string character the way the modelled `json.dumps` does:
only `"` and `\` are escaped, everything else is emitted raw. -/
def escOut (c : Char) : Str :=
  if c == '"' then ['\\', '"']
  else if c == '\\' then ['\\', '\\']
  else [c]

/-- Serialize a JSON string, quotes included. -/
def serStr (s : List Char) : Str :=
  '"' :: (s.map escOut).flatten ++ ['"']

mutual

/-- Serializer modelling `json.dumps(v, indent=2)`; `ind` is the current
indentation level. -/
def serVal (ind : Nat) (v : JVal) : Str :=
  match v with
  | .null => S "null"
  | .bool true => S "true"
  | .bool false => S "false"
  | .num n => serNum n
  | .str s => serStr s
  | .arr [] => S "[]"
  | .arr (x :: xs) =>
    '[' :: '\n' :: (serItems (ind + 2) x xs ++ '\n' :: (pad ind ++ [']']))
  | .obj [] => [lbrace, rbrace]
  | .obj (m :: ms) =>
    lbrace :: '\n' :: (serMembers (ind + 2) m ms ++ '\n' :: (pad ind ++ [rbrace]))
termination_by sizeOf v
decreasing_by all_goals (simp_wf <;> omega)

/-- Serialize the items of a nonempty array, separated by `",\n"` and
each prefixed by its indentation. -/
def serItems (ind : Nat) (x : JVal) (xs : List JVal) : Str :=
  match xs with
  | [] => pad ind ++ serVal ind x
  | y :: tl => pad ind ++ serVal ind x ++ ',' :: '\n' :: serItems ind y tl
termination_by 1 + sizeOf x + sizeOf xs
decreasing_by all_goals (simp_wf <;> omega)

/-- Serialize the members of a nonempty object. -/
def serMembers (ind : Nat) (m : List Char × JVal) (ms : List (List Char × JVal)) : Str :=
  match m, ms with
  | (k, v), [] => pad ind ++ serStr k ++ ':' :: ' ' :: serVal ind v
  | (k, v), m2 :: tl =>
    pad ind ++ serStr k ++ ':' :: ' ' :: serVal ind v ++ ',' :: '\n' :: serMembers ind m2 tl
termination_by 1 + sizeOf m + sizeOf ms
decreasing_by all_goals (simp_wf <;> omega)

end

/-- Model of `json.dumps(obj, indent=2)`. -/
def dumps (v : JVal) : Str := serVal 0 v

/-- `validate_json`: `json.loads` in a `try`, `JSONDecodeError` becomes
`False`. -/
def validate_json (content : Str) : Bool :=
  match json_loads content with
  | .ok _ => true
  | .error _ => false

/-! ## The comma-insertion regex of `fix_json`

`re.sub(r'(?<=[0-9truefalsenull\"\'])(\s*)(?=\s*\"[^\"]+\"\s*:)', ',\n',
content, flags=re.IGNORECASE)`.  The greedy group always captures the
maximal whitespace run, so a match replaces exactly that run (possibly
empty) with `",\n"`; the lookbehind requires the previous character of
the original text to lie in the class, and scanning resumes after the
match (one character further on an empty match, as `re.sub` does). -/

/-- `\s` for ASCII text (the input was ASCII-stripped before the regex). -/
def reWs (c : Char) : Bool :=
  c == ' ' || c == '\t' || c == '\n' || c == '\r' || c == '\x0b' || c == '\x0c'

/-- The lookbehind class `[0-9truefalsenull\"\']` under `re.IGNORECASE`. -/
def lookbehindClass (c : Char) : Bool :=
  c.isDigit || c == '"' || c == Char.ofNat 39 ||
  (let l := c.toLower;
   l == 't' || l == 'r' || l == 'u' || l == 'e' || l == 'f' ||
   l == 'a' || l == 'l' || l == 's' || l == 'n')

/-- The lookahead `(?=\s*\"[^\"]+\"\s*:)` checked at the start of the
whitespace run. -/
def laCheck (s : Str) : Bool :=
  match s.dropWhile reWs with
  | '"' :: rest =>
    let body := rest.takeWhile (fun c => c != '"')
    if body.isEmpty then false
    else
      match rest.drop body.length with
      | '"' :: r2 =>
        (match r2.dropWhile reWs with
         | ':' :: _ => true
         | _ => false)
      | _ => false
  | _ => false

/-- Left-to-right scan performing the substitution; `prev` is the
character preceding the current position in the original text.  Each
step consumes at least one character, so fuel above the length never
reaches the base case. -/
def commaSubGoF : Nat → Option Char → Str → Str
  | 0, _, s => s
  | fuel + 1, prev, s =>
    match s with
    | [] => []
    | c :: cs =>
      let cls := match prev with | some p => lookbehindClass p | none => false
      if cls && laCheck (c :: cs) then
        let run := (c :: cs).takeWhile reWs
        if run.length = 0 then ',' :: '\n' :: c :: commaSubGoF fuel (some c) cs
        else ',' :: '\n' :: commaSubGoF fuel run.getLast? ((c :: cs).drop run.length)
      else c :: commaSubGoF fuel (some c) cs

/-- The full `re.sub` call of `fix_json`. -/
def commaSub (s : Str) : Str := commaSubGoF (s.length + 1) none s

/-- `content.replace('\r\n', '\n')`: left-to-right, non-overlapping. -/
def replCRLF : Str → Str
  | '\r' :: '\n' :: rest => '\n' :: replCRLF rest
  | c :: rest => c :: replCRLF rest
  | [] => []

/-- `fix_json`: strip non-ASCII, normalize line endings, insert commas by
regex, re-parse (raising `ValueError` on failure), and re-serialize with
two-space indentation. -/
def fix_json (content : Str) : Except Str Str :=
  let c1 := remove_unicode_symbols content
  let c2 := replCRLF c1
  let c3 := commaSub c2
  match json_loads c3 with
  | .error e => .error (S "Cannot auto-fix JSON: " ++ e)
  | .ok obj => .ok (dumps obj)

/-- `wrap_json_in_array`: reparse; wrap non-lists in a one-element list;
on any parse error return the input unchanged. -/
def wrap_json_in_array (fixed_content : Str) : Str :=
  match json_loads fixed_content with
  | .ok obj =>
    match obj with
    | .arr _ => fixed_content
    | _ => dumps (.arr [obj])
  | .error _ => fixed_content

/-! ## YAML functions -/

/-- `validate_yaml`: the external `yaml.safe_load` is modelled abstractly
as a total function into `Except`; a `YAMLError` becomes `False`. -/
def validate_yaml {α : Type} (safe_load : Str → Except Str α) (content : Str) : Bool :=
  match safe_load content with
  | .ok _ => true
  | .error _ => false

/-- `line.replace('\t', '    ')`: each tab becomes four spaces. -/
def tabTo4 (l : Str) : Str :=
  (l.map (fun c => if c = '\t' then S "    " else [c])).flatten

/-- The line loop of `fix_yaml`: drop lines that are blank after
stripping, replace tabs in the kept ones. -/
def fixYamlGo : List Str → List Str
  | [] => []
  | l :: ls => if (pyStrip l).isEmpty then fixYamlGo ls else tabTo4 l :: fixYamlGo ls

/-- `fix_yaml`: strip non-ASCII, split lines, drop blank lines, replace
tabs by four spaces, rejoin with newline. -/
def fix_yaml (content : Str) : Str :=
  sjoin ['\n'] (fixYamlGo (pySplitlines (remove_unicode_symbols content)))

/-! ## XML functions -/

/-- `validate_xml`: the external `ET.fromstring` is modelled abstractly;
a `ParseError` becomes `False`. -/
def validate_xml {α : Type} (fromstring : Str → Except Str α) (content : Str) : Bool :=
  match fromstring content with
  | .ok _ => true
  | .error _ => false

/-- `\w` for ASCII text. -/
def isWordChar (c : Char) : Bool := c.isAlphanum || c == '_'

/-- `re.search(r'</\w+>$', s)` for a stripped document: does the text end
in `</`, one or more word characters, `>`? -/
def endsWithCloseTag (s : Str) : Bool :=
  match s.reverse with
  | '>' :: rest =>
    let w := rest.takeWhile isWordChar
    !w.isEmpty && (S "/<").isPrefixOf (rest.drop w.length)
  | _ => false

/-- `re.search(r'<(\w+)', content)`: the first `<` followed by at least
one word character; returns the captured tag name. -/
def firstTagName : Str → Option Str
  | [] => none
  | c :: rest =>
    if c = '<' then
      let w := rest.takeWhile isWordChar
      if w.isEmpty then firstTagName rest else some w
    else firstTagName rest

/-- `fix_xml`: strip non-ASCII, prepend an XML declaration when missing,
and append a closing tag named after the first opening tag when the
stripped text does not already end with a closing-tag pattern. -/
def fix_xml (content : Str) : Str :=
  let c := remove_unicode_symbols content
  let c2 := if (S "<?xml").isPrefixOf c then c
            else S "<?xml version=\"1.0\" encoding=\"UTF-8\"?>" ++ '\n' :: c
  if endsWithCloseTag (pyStrip c2) then c2
  else
    match firstTagName c2 with
    | some root => c2 ++ '\n' :: '<' :: '/' :: (root ++ ['>'])
    | none => c2

/-! ## Diff preview

`difflib.unified_diff` is external; the model reproduces the behaviour
the claims rest on exactly: difflib emits nothing at all when the two
line sequences are equal (the `---`/`+++` header lines are produced
lazily together with the first difference group), and emits the header
lines followed by difference hunks when they are not.  The hunks are
modelled as a single whole-sequence replacement; their internal shape is
irrelevant to the claims, which only use emptiness versus non-emptiness
of the joined output. -/
def unifiedDiff (a b : List Str) : List Str :=
  if a = b then []
  else
    (S "--- Original") :: (S "+++ Fixed") :: (S "@@") ::
    (a.map (fun l => '-' :: l) ++ b.map (fun l => '+' :: l))

/-- `preview_diff_and_confirm`: join the diff; when its stripped text is
empty report no differences and answer `False` without consulting the
user; otherwise show the diff and return whether the user's stripped,
lowercased answer equals `y`.  The console is modelled by passing the
line `input()` would produce as `userInput`. -/
def preview_diff_and_confirm (original fixed : Str) (userInput : Str) : Bool :=
  let diff := unifiedDiff (pySplitlines original) (pySplitlines fixed)
  let diff_output := sjoin ['\n'] diff
  if (pyStrip diff_output).isEmpty then false
  else pyLower (pyStrip userInput) == S "y"

/-! ## Path handling -/

/-- Index of the last occurrence of `c` in `s`, like `str.rfind` (with
`none` for `-1`). -/
def lastIdx (c : Char) (s : Str) : Option Nat :=
  ((s.enum.filter (fun p => p.2 == c)).map (fun p => p.1)).getLast?

/-- Model of `os.path.splitext` (posix): split at the last dot of the
last path component, except that leading dots of the component never
start an extension. -/
def splitext (p : Str) : Str × Str :=
  let dot := lastIdx '.' p
  let sep := lastIdx '/' p
  match dot with
  | none => (p, [])
  | some d =>
    let fi := match sep with | none => 0 | some s2 => s2 + 1
    if fi ≤ d then
      if (List.range (d - fi)).any (fun k => p.getD (fi + k) ' ' != '.') then
        (p.take d, p.drop d)
      else (p, [])
    else (p, [])

/-- The output path of `save_fixed_file`: `base + "_fixed" + ext`. -/
def save_fixed_file_path (original_path : Str) : Str :=
  (splitext original_path).1 ++ S "_fixed" ++ (splitext original_path).2

/-- `detect_file_type`: a known extension decides the type by itself
(`ext.replace('.', '')`); otherwise the stripped first line of the file
content is classified by its leading characters.  The file's content is
an explicit argument standing for the lazy read. -/
def detect_file_type (file_path : Str) (fileContent : Str) : Str :=
  let ext := pyLower (splitext file_path).2
  if ext ∈ [S ".json", S ".yaml", S ".yml", S ".xml"] then
    ext.filter (fun c => c != '.')
  else
    let first_line := pyStrip (fileContent.takeWhile (fun c => c != '\n' && c != '\r'))
    if (S "\x7b").isPrefixOf first_line || (S "[").isPrefixOf first_line then S "json"
    else if (S "<?xml").isPrefixOf first_line || (S "<").isPrefixOf first_line then S "xml"
    else S "yaml"

/-- Is the parsed value a Python list? (`isinstance(obj, list)`). -/
def isArr : JVal → Bool
  | .arr _ => true
  | _ => false

/-- A string a serialized JSON value may be followed by without merging
tokens: empty, or starting with a non-digit. -/
def restOk : Str → Prop
  | [] => True
  | c :: _ => c.isDigit = false

/-- What follows the first item inside a serialized array body. -/
def serItemsRest (ind : Nat) : List JVal → Str
  | [] => []
  | y :: tl => ',' :: '\n' :: serItems ind y tl

/-- What follows the first member inside a serialized object body. -/
def serMembersRest (ind : Nat) : List (List Char × JVal) → Str
  | [] => []
  | m2 :: tl => ',' :: '\n' :: serMembers ind m2 tl

/-! ## Helper lemmas -/

/-- Splitting a path into base and extension loses nothing. -/
theorem splitext_append (p : Str) : (splitext p).1 ++ (splitext p).2 = p := by
  unfold splitext
  cases lastIdx '.' p with
  | none => simp
  | some d =>
    simp only []
    split
    · split
      · simp [List.take_append_drop]
      · simp
    · simp

/-- The boolean produced by a `try`/`except` wrapper around an `Except`
computation, characterized on both sides. -/
theorem exceptBool_spec {α : Type} (r : Except Str α) :
    ((match r with | .ok _ => true | .error _ => false) = true ↔ ∃ v, r = Except.ok v) ∧
    ((match r with | .ok _ => true | .error _ => false) = false ↔ ∃ e, r = Except.error e) := by
  cases r <;> simp

/-- A `takeWhile` over a block that wholly satisfies the predicate,
followed by a stopper, returns exactly the block. -/
theorem takeWhile_append_of_all (p : Char → Bool) :
    ∀ (l rest : Str), (∀ c ∈ l, p c = true) →
      (rest = [] ∨ ∃ c cs, rest = c :: cs ∧ p c = false) →
      (l ++ rest).takeWhile p = l := by
  intro l
  induction l with
  | nil =>
    intro rest _ hrest
    rcases hrest with rfl | ⟨c, cs, rfl, hc⟩
    · rfl
    · simp [List.takeWhile_cons, hc]
  | cons a tl ih =>
    intro rest hall hrest
    have ha : p a = true := hall a (by simp)
    simp only [List.cons_append, List.takeWhile_cons, ha, if_true]
    rw [ih rest (fun c hc => hall c (by simp [hc])) hrest]

/-- Stripping yields the empty string exactly when every character is
whitespace. -/
theorem pyStrip_eq_nil_iff (l : Str) :
    pyStrip l = [] ↔ ∀ c ∈ l, pyIsSpace c = true := by
  have hsub : ∀ (m : Str), (∀ a ∈ m.dropWhile pyIsSpace, pyIsSpace a = true) ↔
      (∀ a ∈ m, pyIsSpace a = true) := by
    intro m
    constructor
    · intro h a ha
      rcases List.mem_append.1 (by rw [List.takeWhile_append_dropWhile] ; exact ha :
          a ∈ m.takeWhile pyIsSpace ++ m.dropWhile pyIsSpace) with h1 | h1
      · exact List.mem_takeWhile_imp h1
      · exact h a h1
    · intro h a ha
      exact h a ((List.dropWhile_sublist pyIsSpace).subset ha)
  constructor
  · intro h
    rw [pyStrip, List.reverse_eq_nil_iff, List.dropWhile_eq_nil_iff] at h
    rw [← hsub]
    intro a ha
    exact h a (List.mem_reverse.2 ha)
  · intro h
    rw [pyStrip, List.reverse_eq_nil_iff, List.dropWhile_eq_nil_iff]
    intro a ha
    exact (hsub _).2 h a (List.mem_reverse.1 ha)

/-- Unfolding of a line replacement: the head character maps to its
piece, the tail follows. -/
theorem tabTo4_cons (c : Char) (l : Str) :
    tabTo4 (c :: l) = (if c = '\t' then S "    " else [c]) ++ tabTo4 l := by
  simp [tabTo4]

/-- Character counts of `tabTo4`: spaces gain four per tab, tabs vanish,
and the length grows by three per tab. -/
theorem tabTo4_counts : ∀ l : Str,
    (tabTo4 l).count ' ' = l.count ' ' + 4 * l.count '\t' ∧
    (tabTo4 l).count '\t' = 0 ∧
    (tabTo4 l).length = l.length + 3 * l.count '\t' := by
  intro l
  induction l with
  | nil => simp [tabTo4]
  | cons c tl ih =>
    rw [tabTo4_cons]
    by_cases hc : c = '\t'
    · subst hc
      simp only [if_true, List.count_append, List.length_append, List.count_cons]
      refine ⟨?_, ?_, ?_⟩ <;> simp [S, ih.1, ih.2.1, ih.2.2] <;> omega
    · simp only [if_neg hc, List.count_append, List.length_append, List.count_cons]
      by_cases hsp : c = ' '
      · subst hsp
        refine ⟨?_, ?_, ?_⟩ <;> simp [ih.1, ih.2.1, ih.2.2] <;> omega
      · refine ⟨?_, ?_, ?_⟩ <;>
          simp [ih.1, ih.2.1, ih.2.2, List.count_cons, hc, hsp,
            (by exact fun h => hsp h.symm : ¬(' ' = c)),
            (by exact fun h => hc h.symm : ¬('\t' = c))] <;> omega

/-- `tabTo4` introduces no line-break characters. -/
theorem tabTo4_no_break (l : Str) (h : ∀ c ∈ l, isLineBreak c = false) :
    ∀ c ∈ tabTo4 l, isLineBreak c = false := by
  induction l with
  | nil => simp [tabTo4]
  | cons a tl ih =>
    rw [tabTo4_cons]
    intro c hc
    rcases List.mem_append.1 hc with h1 | h1
    · by_cases ha : a = '\t'
      · rw [ha] at h1
        simp only [if_true] at h1
        have : c = ' ' := by simpa [S] using h1
        rw [this]; decide
      · rw [if_neg ha] at h1
        have : c = a := by simpa using h1
        rw [this]; exact h a (by simp)
    · exact ih (fun c hc => h c (by simp [hc])) c h1

/-- `tabTo4` of a nonempty line is nonempty. -/
theorem tabTo4_ne_nil (l : Str) (h : l ≠ []) : tabTo4 l ≠ [] := by
  cases l with
  | nil => exact absurd rfl h
  | cons a tl =>
    rw [tabTo4_cons]
    by_cases ha : a = '\t' <;> simp [ha, S]

/-- A line with strippable content keeps strippable content after tab
replacement. -/
theorem tabTo4_strip_ne (l : Str) (h : pyStrip l ≠ []) : pyStrip (tabTo4 l) ≠ [] := by
  intro habs
  apply h
  rw [pyStrip_eq_nil_iff] at habs ⊢
  intro c hc
  by_contra hcs
  have hct : c ≠ '\t' := by
    intro he; rw [he] at hcs; exact hcs (by decide)
  have hmem : c ∈ tabTo4 l := by
    have : [c] ∈ l.map (fun d => if d = '\t' then S "    " else [d]) := by
      rw [List.mem_map]
      exact ⟨c, hc, by rw [if_neg hct]⟩
    exact List.mem_flatten.2 ⟨[c], this, by simp⟩
  exact hcs (habs c hmem)

/-- Membership in a joined list comes from a block or the separator. -/
theorem mem_sjoin (sep : Str) : ∀ (ls : List Str) (x : Char),
    x ∈ sjoin sep ls → (∃ l ∈ ls, x ∈ l) ∨ x ∈ sep := by
  intro ls
  induction ls with
  | nil => intro x hx; simp [sjoin, List.intercalate] at hx
  | cons a tl ih =>
    intro x hx
    cases tl with
    | nil => exact Or.inl ⟨a, by simp, by simpa [sjoin, List.intercalate] using hx⟩
    | cons b tl2 =>
      rw [sjoin, List.intercalate, List.intersperse_cons_cons, List.flatten_cons,
        List.flatten_cons] at hx
      rcases List.mem_append.1 hx with h1 | h1
      · exact Or.inl ⟨a, by simp, h1⟩
      · rcases List.mem_append.1 h1 with h2 | h2
        · exact Or.inr h2
        · rcases ih x (by rw [sjoin, List.intercalate]; exact h2) with ⟨l, hl, hxl⟩ | hsep
          · exact Or.inl ⟨l, by simp [hl], hxl⟩
          · exact Or.inr hsep

/-- Join of two or more blocks unfolds one block and one separator. -/
theorem sjoin_cons_cons (sep a b : Str) (tl : List Str) :
    sjoin sep (a :: b :: tl) = a ++ sep ++ sjoin sep (b :: tl) := by
  rw [sjoin, List.intercalate, List.intersperse_cons_cons, List.flatten_cons,
    List.flatten_cons, sjoin, List.intercalate, List.append_assoc]

set_option maxHeartbeats 1000000 in
/-- Enough fuel makes the splitlines worker independent of the exact
fuel. -/
theorem pySplitlinesF_ext : ∀ (n : Nat) (s : Str) (f1 f2 : Nat), s.length ≤ n →
    s.length < f1 → s.length < f2 → pySplitlinesF f1 s = pySplitlinesF f2 s := by
  intro n
  induction n with
  | zero =>
    intro s f1 f2 hn h1 h2
    have : s = [] := List.length_eq_zero.1 (Nat.le_zero.1 hn)
    subst this
    obtain ⟨g1, rfl⟩ : ∃ g, f1 = g + 1 := ⟨f1 - 1, by omega⟩
    obtain ⟨g2, rfl⟩ : ∃ g, f2 = g + 1 := ⟨f2 - 1, by omega⟩
    rfl
  | succ n ih =>
    intro s f1 f2 hn h1 h2
    obtain ⟨g1, rfl⟩ : ∃ g, f1 = g + 1 := ⟨f1 - 1, by omega⟩
    obtain ⟨g2, rfl⟩ : ∃ g, f2 = g + 1 := ⟨f2 - 1, by omega⟩
    cases s with
    | nil => rfl
    | cons c cs =>
      simp only [pySplitlinesF]
      cases hdrop : (c :: cs).drop ((c :: cs).takeWhile (fun d => !(isLineBreak d))).length with
      | nil => rfl
      | cons d r0 =>
        have htw : ((c :: cs).takeWhile (fun d => !(isLineBreak d))).length ≤ (c :: cs).length :=
          (List.takeWhile_prefix _).length_le
        have hlen0 : r0.length + 1 ≤ cs.length + 1 := by
          have h3 := congrArg List.length hdrop
          rw [List.length_drop] at h3
          simp only [List.length_cons] at h3 htw
          omega
        have hcc : (c :: cs).length = cs.length + 1 := List.length_cons c cs
        have hnn : cs.length + 1 ≤ n + 1 := by rw [← hcc]; exact hn
        have hg1 : cs.length + 1 ≤ g1 + 1 := by rw [← hcc]; omega
        have hg2 : cs.length + 1 ≤ g2 + 1 := by rw [← hcc]; omega
        by_cases hd : d = '\r'
        · subst hd
          cases r0 with
          | nil =>
            have h0 := ih [] g1 g2 (by simp)
              (by simp only [List.length_nil]; omega) (by simp only [List.length_nil]; omega)
            simp [h0]
          | cons e r1 =>
            simp only [List.length_cons] at hlen0
            by_cases he : e = '\n'
            · subst he
              have h0 := ih r1 g1 g2 (by omega) (by omega) (by omega)
              simp [h0]
            · have h0 := ih (e :: r1) g1 g2 (by simp; omega) (by simp; omega) (by simp; omega)
              simp [he, h0]
        · have h0 := ih r0 g1 g2 (by omega) (by omega) (by omega)
          simp [hd, h0]

/-- Every line produced by the splitlines worker is free of line-break
characters. -/
theorem pySplitlines_no_break : ∀ (fuel : Nat) (s : Str),
    ∀ l ∈ pySplitlinesF fuel s, ∀ c ∈ l, isLineBreak c = false := by
  intro fuel
  induction fuel with
  | zero => intro s l hl; simp [pySplitlinesF] at hl
  | succ f ih =>
    intro s l hl c hc
    cases s with
    | nil => simp [pySplitlinesF] at hl
    | cons a as =>
      simp only [pySplitlinesF] at hl
      revert hl
      cases hdrop : (a :: as).drop ((a :: as).takeWhile (fun d => !(isLineBreak d))).length with
      | nil =>
        intro hl
        have : l = (a :: as).takeWhile (fun d => !(isLineBreak d)) := by simpa using hl
        subst this
        simpa using List.mem_takeWhile_imp hc
      | cons d r0 =>
        intro hl
        rcases List.mem_cons.1 hl with rfl | hl2
        · simpa using List.mem_takeWhile_imp hc
        · by_cases hd : d = '\r'
          · subst hd
            cases r0 with
            | nil =>
              simp only [if_pos rfl] at hl2
              exact ih [] l hl2 c hc
            | cons e r1 =>
              by_cases he : e = '\n'
              · subst he
                simp only [if_pos rfl] at hl2
                exact ih r1 l hl2 c hc
              · simp only [if_pos rfl, if_neg he] at hl2
                exact ih (e :: r1) l hl2 c hc
          · simp only [if_neg hd] at hl2
            exact ih r0 l hl2 c hc

/-- Splitting a newline join of nonempty, break-free lines recovers the
lines, given enough fuel. -/
theorem pySplitlinesF_join : ∀ (ls : List Str) (x : Str) (fuel : Nat),
    (∀ l ∈ x :: ls, l ≠ [] ∧ ∀ c ∈ l, isLineBreak c = false) →
    (sjoin ['\n'] (x :: ls)).length < fuel →
    pySplitlinesF fuel (sjoin ['\n'] (x :: ls)) = x :: ls := by
  intro ls
  induction ls with
  | nil =>
    intro x fuel hprops hfuel
    have hx := hprops x (by simp)
    obtain ⟨g, rfl⟩ : ∃ g, fuel = g + 1 := ⟨fuel - 1, by omega⟩
    have hjoin : sjoin ['\n'] [x] = x := by simp [sjoin, List.intercalate]
    rw [hjoin] at hfuel ⊢
    obtain ⟨c, cs, rfl⟩ : ∃ c cs, x = c :: cs := by
      cases x with
      | nil => exact absurd rfl hx.1
      | cons c cs => exact ⟨c, cs, rfl⟩
    have htake : (c :: cs).takeWhile (fun d => !(isLineBreak d)) = c :: cs := by
      have := takeWhile_append_of_all (fun d => !(isLineBreak d)) (c :: cs) []
        (fun d hd => by simp [hx.2 d hd]) (Or.inl rfl)
      simpa using this
    simp only [pySplitlinesF, htake, List.drop_length]
  | cons y tl ih =>
    intro x fuel hprops hfuel
    have hx := hprops x (by simp)
    rw [sjoin_cons_cons] at hfuel ⊢
    obtain ⟨g, rfl⟩ : ∃ g, fuel = g + 1 := ⟨fuel - 1, by omega⟩
    obtain ⟨c, cs, rfl⟩ : ∃ c cs, x = c :: cs := by
      cases x with
      | nil => exact absurd rfl hx.1
      | cons c cs => exact ⟨c, cs, rfl⟩
    have hshape : (c :: cs) ++ ['\n'] ++ sjoin ['\n'] (y :: tl) =
        c :: (cs ++ '\n' :: sjoin ['\n'] (y :: tl)) := by simp
    rw [hshape]
    have htake : (c :: (cs ++ '\n' :: sjoin ['\n'] (y :: tl))).takeWhile
        (fun d => !(isLineBreak d)) = c :: cs := by
      have := takeWhile_append_of_all (fun d => !(isLineBreak d)) (c :: cs)
        ('\n' :: sjoin ['\n'] (y :: tl))
        (fun d hd => by simp [hx.2 d hd])
        (Or.inr ⟨'\n', sjoin ['\n'] (y :: tl), rfl, by decide⟩)
      simpa using this
    have hdrop : (c :: (cs ++ '\n' :: sjoin ['\n'] (y :: tl))).drop (c :: cs).length =
        '\n' :: sjoin ['\n'] (y :: tl) := by
      have := List.drop_left (c :: cs) ('\n' :: sjoin ['\n'] (y :: tl))
      simpa using this
    simp only [pySplitlinesF, htake, hdrop]
    rw [if_neg (by simp)]
    congr 1
    have hlen2 : (sjoin ['\n'] (y :: tl)).length < g := by
      simp [List.length_append] at hfuel
      omega
    exact ih y g (fun l hl => hprops l (List.mem_cons_of_mem _ hl)) hlen2

/-- The line filter of `fix_yaml` as a `filterMap`: blank lines are
dropped, kept lines get their tabs replaced. -/
theorem fixYamlGo_eq_filterMap : ∀ ls : List Str,
    fixYamlGo ls = ls.filterMap
      (fun l => if pyStrip l = [] then none else some (tabTo4 l)) := by
  intro ls
  induction ls with
  | nil => rfl
  | cons l tl ih =>
    by_cases h : pyStrip l = []
    · simp [fixYamlGo, List.filterMap_cons, h, List.isEmpty_iff, ih]
    · simp [fixYamlGo, List.filterMap_cons, h, List.isEmpty_iff, ih]

/-- Each kept line of `fix_yaml` is the tab replacement of a nonblank
input line. -/
theorem mem_fixYamlGo (ls : List Str) (m : Str) (h : m ∈ fixYamlGo ls) :
    ∃ l ∈ ls, pyStrip l ≠ [] ∧ m = tabTo4 l := by
  rw [fixYamlGo_eq_filterMap] at h
  rcases List.mem_filterMap.1 h with ⟨l, hl, hf⟩
  by_cases hb : pyStrip l = []
  · rw [if_pos hb] at hf; cases hf
  · rw [if_neg hb] at hf
    exact ⟨l, hl, hb, (Option.some_injective _ hf).symm⟩

/-- An empty diff makes the preview return `False` whatever the console
input is. -/
theorem preview_false_of_diff_empty (original fixed userInput : Str)
    (h : unifiedDiff (pySplitlines original) (pySplitlines fixed) = []) :
    preview_diff_and_confirm original fixed userInput = false := by
  simp only [preview_diff_and_confirm, h]
  rfl

/-! ## Round-trip lemmas: the serializer's output re-parses -/

/-- Digit characters have code points between 48 and 57. -/
theorem isDigit_toNat {c : Char} (h : c.isDigit = true) :
    48 ≤ c.toNat ∧ c.toNat ≤ 57 := by
  simp [Char.isDigit] at h
  obtain ⟨h1, h2⟩ := h
  exact ⟨h1, h2⟩

/-- Characters with distinct code points are distinct. -/
theorem char_ne_of_toNat {c d : Char} (h : c.toNat ≠ d.toNat) : c ≠ d :=
  fun he => h (congrArg Char.toNat he)

/-- A digit differs from any character outside the digit code range. -/
theorem isDigit_ne {c : Char} (h : c.isDigit = true) (d : Char)
    (hd : d.toNat < 48 ∨ 57 < d.toNat) : c ≠ d := by
  have hr := isDigit_toNat h
  intro he
  subst he
  omega

/-- Digits are not JSON whitespace. -/
theorem isDigit_not_ws {c : Char} (h : c.isDigit = true) : jsonWs c = false := by
  simp only [jsonWs, Bool.or_eq_false_iff]
  refine ⟨⟨⟨?_, ?_⟩, ?_⟩, ?_⟩ <;>
    exact beq_eq_false_iff_ne.mpr (isDigit_ne h _ (by decide))

/-- `skipWs` leaves a non-whitespace head alone. -/
theorem skipWs_cons_not {c : Char} (cs : Str) (h : jsonWs c = false) :
    skipWs (c :: cs) = c :: cs := by
  simp [skipWs, h]

/-- `skipWs` crosses an all-whitespace block. -/
theorem skipWs_append (w s : Str) (h : ∀ c ∈ w, jsonWs c = true) :
    skipWs (w ++ s) = skipWs s := by
  induction w with
  | nil => rfl
  | cons a tl ih =>
    have := h a (by simp)
    simp only [List.cons_append, skipWs, this, if_true]
    exact ih (fun c hc => h c (by simp [hc]))

/-- Padding is all whitespace. -/
theorem pad_ws (n : Nat) : ∀ c ∈ pad n, jsonWs c = true := by
  intro c hc
  have : c = ' ' := List.eq_of_mem_replicate hc
  subst this
  decide

/-- `skipWs` crosses indentation padding. -/
theorem skipWs_pad (n : Nat) (s : Str) : skipWs (pad n ++ s) = skipWs s :=
  skipWs_append _ _ (pad_ws n)

/-- The value scanner ignores leading whitespace. -/
theorem parseVal_ws (f : Nat) (w s : Str) (h : ∀ c ∈ w, jsonWs c = true) :
    parseVal f (w ++ s) = parseVal f s := by
  cases f with
  | zero => rfl
  | succ g => simp only [parseVal, skipWs_append w s h]

/-- Scanning the serialized body of a string recovers the string. -/
theorem parseStrBody_ser : ∀ (s : List Char) (rest : Str),
    parseStrBody ((s.map escOut).flatten ++ '"' :: rest) = .ok (s, rest) := by
  intro s
  induction s with
  | nil =>
    intro rest
    rw [parseStrBody.eq_def]
    simp
  | cons c tl ih =>
    intro rest
    simp only [List.map_cons, List.flatten_cons, List.append_assoc]
    by_cases hq : c = '"'
    · subst hq
      rw [show escOut '"' = ['\\', '"'] from rfl]
      rw [List.cons_append, List.cons_append, parseStrBody.eq_def]
      simp [escChar, ih rest]
    · by_cases hb : c = '\\'
      · subst hb
        rw [show escOut '\\' = ['\\', '\\'] from rfl]
        rw [List.cons_append, List.cons_append, parseStrBody.eq_def]
        simp [escChar, ih rest]
      · have h1 : (c == '"') = false := beq_eq_false_iff_ne.mpr hq
        have h2 : (c == '\\') = false := beq_eq_false_iff_ne.mpr hb
        rw [show escOut c = [c] from by simp [escOut, hq, hb]]
        rw [List.cons_append, List.nil_append, parseStrBody.eq_def]
        simp [h1, h2, ih rest]

/-- Enough fuel makes the digit emitter independent of the exact fuel. -/
theorem natReprF_ext : ∀ (N n f1 f2 : Nat), n ≤ N → n < f1 → n < f2 →
    natReprF f1 n = natReprF f2 n := by
  intro N
  induction N with
  | zero =>
    intro n f1 f2 hn h1 h2
    obtain ⟨g1, rfl⟩ : ∃ g, f1 = g + 1 := ⟨f1 - 1, by omega⟩
    obtain ⟨g2, rfl⟩ : ∃ g, f2 = g + 1 := ⟨f2 - 1, by omega⟩
    interval_cases n
    rfl
  | succ N ih =>
    intro n f1 f2 hn h1 h2
    obtain ⟨g1, rfl⟩ : ∃ g, f1 = g + 1 := ⟨f1 - 1, by omega⟩
    obtain ⟨g2, rfl⟩ : ∃ g, f2 = g + 1 := ⟨f2 - 1, by omega⟩
    by_cases hlt : n < 10
    · simp [natReprF, hlt]
    · have hdiv : n / 10 < n := Nat.div_lt_self (by omega) (by omega)
      simp only [natReprF, if_neg hlt]
      rw [ih (n / 10) g1 g2 (by omega) (by omega) (by omega)]

/-- Small numbers print as a single digit. -/
theorem natRepr_lt10 {n : Nat} (h : n < 10) :
    natRepr n = [Char.ofNat ('0'.toNat + n)] := by
  simp [natRepr, natReprF, h]

/-- Large numbers print their quotient followed by their last digit. -/
theorem natRepr_ge10 {n : Nat} (h : 10 ≤ n) :
    natRepr n = natRepr (n / 10) ++ [Char.ofNat ('0'.toNat + n % 10)] := by
  have hdiv : n / 10 < n := Nat.div_lt_self (by omega) (by omega)
  rw [natRepr, natReprF, if_neg (by omega)]
  rw [natRepr]
  rw [natReprF_ext n (n / 10) n (n / 10 + 1) (by omega) (by omega) (by omega)]

/-- The character emitted for a digit value is a digit character. -/
theorem digitCh_isDigit {n : Nat} (h : n < 10) :
    (Char.ofNat ('0'.toNat + n)).isDigit = true := by
  interval_cases n <;> decide

/-- Reading back the character emitted for a digit value. -/
theorem digitVal_digitCh {n : Nat} (h : n < 10) :
    digitVal (Char.ofNat ('0'.toNat + n)) = n := by
  interval_cases n <;> decide

/-- Reading back the emitted digit, with the code point spelled out. -/
theorem digitVal_digitCh48 {n : Nat} (h : n < 10) :
    digitVal (Char.ofNat (48 + n)) = n :=
  digitVal_digitCh h

/-- Only the zero digit prints as `0`. -/
theorem digitCh_ne_zero {n : Nat} (h : n < 10) (h0 : n ≠ 0) :
    Char.ofNat ('0'.toNat + n) ≠ '0' := by
  interval_cases n <;> first | exact absurd rfl h0 | decide

/-- Every printed character is a digit. -/
theorem natRepr_digits : ∀ (N n : Nat), n ≤ N → ∀ c ∈ natRepr n, c.isDigit = true := by
  intro N
  induction N with
  | zero =>
    intro n hn c hc
    interval_cases n
    rw [natRepr_lt10 (by omega)] at hc
    have : c = Char.ofNat ('0'.toNat + 0) := by simpa using hc
    subst this
    exact digitCh_isDigit (by omega)
  | succ N ih =>
    intro n hn c hc
    by_cases hlt : n < 10
    · rw [natRepr_lt10 hlt] at hc
      have : c = Char.ofNat ('0'.toNat + n) := by simpa using hc
      subst this
      exact digitCh_isDigit hlt
    · rw [natRepr_ge10 (by omega)] at hc
      rcases List.mem_append.1 hc with h1 | h1
      · exact ih (n / 10) (by omega) c h1
      · have : c = Char.ofNat ('0'.toNat + n % 10) := by simpa using h1
        subst this
        exact digitCh_isDigit (by omega)

/-- A nonzero number prints with a nonzero leading digit, digits after. -/
theorem natRepr_head : ∀ (N n : Nat), n ≤ N → n ≠ 0 →
    ∃ c cs, natRepr n = c :: cs ∧ c.isDigit = true ∧ c ≠ '0' ∧
      (∀ d ∈ cs, d.isDigit = true) := by
  intro N
  induction N with
  | zero =>
    intro n hn h0
    interval_cases n
    exact absurd rfl h0
  | succ N ih =>
    intro n hn h0
    by_cases hlt : n < 10
    · refine ⟨Char.ofNat ('0'.toNat + n), [], natRepr_lt10 hlt,
        digitCh_isDigit hlt, digitCh_ne_zero hlt h0, by simp⟩
    · have hq0 : n / 10 ≠ 0 := by omega
      rcases ih (n / 10) (by omega) hq0 with ⟨c, cs, heq, hdig, hne, hall⟩
      refine ⟨c, cs ++ [Char.ofNat ('0'.toNat + n % 10)], ?_, hdig, hne, ?_⟩
      · rw [natRepr_ge10 (by omega), heq]
        simp
      · intro d hd
        rcases List.mem_append.1 hd with h1 | h1
        · exact hall d h1
        · have : d = Char.ofNat ('0'.toNat + n % 10) := by simpa using h1
          subst this
          exact digitCh_isDigit (by omega)

/-- Folding the printed digits onto an accumulator. -/
theorem foldDigits_natRepr : ∀ (N n : Nat), n ≤ N → ∀ a : Nat,
    foldDigits a (natRepr n) = a * 10 ^ (natRepr n).length + n := by
  intro N
  induction N with
  | zero =>
    intro n hn a
    interval_cases n
    rw [natRepr_lt10 (by omega)]
    simp [foldDigits, digitVal_digitCh48 (show 0 < 10 by omega), pow_one]
  | succ N ih =>
    intro n hn a
    by_cases hlt : n < 10
    · rw [natRepr_lt10 hlt]
      simp [foldDigits, digitVal_digitCh48 hlt, pow_one]
    · rw [natRepr_ge10 (by omega)]
      rw [foldDigits, List.foldl_append]
      rw [show List.foldl (fun a c => a * 10 + digitVal c) a (natRepr (n / 10)) =
        foldDigits a (natRepr (n / 10)) from rfl]
      rw [ih (n / 10) (by omega) a]
      simp only [List.foldl_cons, List.foldl_nil, List.length_append,
        List.length_cons, List.length_nil]
      rw [digitVal_digitCh (by omega : n % 10 < 10)]
      have hpow : 10 ^ ((natRepr (n / 10)).length + (0 + 1)) =
          10 ^ (natRepr (n / 10)).length * 10 := by
        rw [Nat.zero_add, Nat.pow_succ]
      rw [hpow]
      have hexp : (a * 10 ^ (natRepr (n / 10)).length + n / 10) * 10 + n % 10 =
          a * (10 ^ (natRepr (n / 10)).length * 10) + (n / 10 * 10 + n % 10) := by ring
      rw [hexp]
      omega

/-- Unpacking the follower condition. -/
theorem restOk_iff (rest : Str) : restOk rest ↔
    (rest = [] ∨ ∃ c cs, rest = c :: cs ∧ c.isDigit = false) := by
  cases rest <;> simp [restOk]

/-- One step of the digit fold. -/
theorem foldDigits_cons (a : Nat) (c : Char) (cs : List Char) :
    foldDigits a (c :: cs) = foldDigits (a * 10 + digitVal c) cs := rfl

/-- Scanning the printed digits of a natural number recovers it. -/
theorem parseUInt_natRepr (n : Nat) (rest : Str) (hrest : restOk rest) :
    parseUInt (natRepr n ++ rest) = .ok (n, rest) := by
  by_cases h0 : n = 0
  · subst h0
    rw [show natRepr 0 = ['0'] from by decide, List.cons_append]
    simp [parseUInt]
  · rcases natRepr_head n n le_rfl h0 with ⟨c, cs, heq, hdig, hne0, hall⟩
    have hf : foldDigits (digitVal c) cs = n := by
      have h1 := foldDigits_natRepr n n le_rfl 0
      rw [heq, foldDigits_cons] at h1
      simpa using h1
    rw [heq, List.cons_append]
    simp only [parseUInt]
    rw [if_neg hne0, if_pos hdig]
    rw [takeWhile_append_of_all Char.isDigit cs rest hall ((restOk_iff rest).1 hrest)]
    rw [List.drop_left, hf]

/-- Scanning a serialized integer recovers it. -/
theorem parseNumAt_serNum (n : Int) (rest : Str) (hrest : restOk rest) :
    parseNumAt (serNum n ++ rest) = .ok (n, rest) := by
  by_cases hneg : n < 0
  · rw [serNum, if_pos hneg, List.cons_append]
    simp [parseNumAt, parseUInt_natRepr n.natAbs rest hrest]
    rw [abs_of_neg hneg, neg_neg]
  · rw [serNum, if_neg hneg]
    have hex : ∃ c cs, natRepr n.natAbs = c :: cs ∧ c.isDigit = true := by
      by_cases h0 : n.natAbs = 0
      · exact ⟨'0', [], by rw [h0]; decide, by decide⟩
      · rcases natRepr_head n.natAbs n.natAbs le_rfl h0 with ⟨c, cs, heq, hdig, _, _⟩
        exact ⟨c, cs, heq, hdig⟩
    rcases hex with ⟨c, cs, heq, hdig⟩
    have h2 : (n.natAbs : Int) = n := by omega
    rw [heq, List.cons_append]
    simp only [parseNumAt]
    rw [if_neg (isDigit_ne hdig '-' (by decide))]
    rw [← List.cons_append, ← heq, parseUInt_natRepr n.natAbs rest hrest]
    simp [h2]

/-- Every serialized value starts with a non-whitespace character other
than `]`. -/
theorem serVal_cons (ind : Nat) (v : JVal) : ∃ c cs, serVal ind v = c :: cs ∧
    jsonWs c = false ∧ c ≠ ']' := by
  cases v with
  | null =>
    refine ⟨'n', S "ull", ?_, by decide, by decide⟩
    rw [show serVal ind JVal.null = S "null" from by simp [serVal]]
    decide
  | bool b =>
    cases b with
    | true =>
      refine ⟨'t', S "rue", ?_, by decide, by decide⟩
      rw [show serVal ind (JVal.bool true) = S "true" from by simp [serVal]]
      decide
    | false =>
      refine ⟨'f', S "alse", ?_, by decide, by decide⟩
      rw [show serVal ind (JVal.bool false) = S "false" from by simp [serVal]]
      decide
  | num n =>
    rw [show serVal ind (JVal.num n) = serNum n from by simp [serVal]]
    by_cases hneg : n < 0
    · exact ⟨'-', natRepr n.natAbs, by rw [serNum, if_pos hneg], by decide, by decide⟩
    · rw [serNum, if_neg hneg]
      by_cases h0 : n.natAbs = 0
      · exact ⟨'0', [], by rw [h0]; decide, by decide, by decide⟩
      · rcases natRepr_head n.natAbs n.natAbs le_rfl h0 with ⟨c, cs, heq, hdig, _, _⟩
        exact ⟨c, cs, heq, isDigit_not_ws hdig, isDigit_ne hdig ']' (by decide)⟩
  | str s =>
    exact ⟨'"', (s.map escOut).flatten ++ ['"'],
      by rw [show serVal ind (JVal.str s) = serStr s from by simp [serVal]]; rfl,
      by decide, by decide⟩
  | arr xs =>
    cases xs with
    | nil =>
      refine ⟨'[', [']'], ?_, by decide, by decide⟩
      rw [show serVal ind (JVal.arr []) = S "[]" from by simp [serVal]]
      decide
    | cons x tl =>
      exact ⟨'[', '\n' :: (serItems (ind + 2) x tl ++ '\n' :: (pad ind ++ [']'])),
        by simp [serVal], by decide, by decide⟩
  | obj ms =>
    cases ms with
    | nil =>
      exact ⟨lbrace, [rbrace], by simp [serVal], by decide, by decide⟩
    | cons m tl =>
      exact ⟨lbrace, '\n' :: (serMembers (ind + 2) m tl ++ '\n' :: (pad ind ++ [rbrace])),
        by simp [serVal], by decide, by decide⟩

/-- Sizes are positive. -/
theorem sizeJ_pos : ∀ v : JVal, 1 ≤ sizeJ v := by
  intro v
  cases v <;> simp [sizeJ]

/-- Array-body sizes are positive. -/
theorem sizeL_pos : ∀ xs : List JVal, 1 ≤ sizeL xs := by
  intro xs
  cases xs with
  | nil => simp [sizeL]
  | cons x tl => simp only [sizeL]; omega

/-- Object-body sizes are positive. -/
theorem sizeM_pos : ∀ ms : List (List Char × JVal), 1 ≤ sizeM ms := by
  intro ms
  cases ms with
  | nil => simp [sizeM]
  | cons m tl =>
    rcases m with ⟨k, v⟩
    simp only [sizeM]
    omega

/-- The size of an array body dominates its length. -/
theorem sizeL_ge_len : ∀ xs : List JVal, xs.length + 1 ≤ sizeL xs := by
  intro xs
  induction xs with
  | nil => simp [sizeL]
  | cons x tl ih =>
    have := sizeJ_pos x
    simp only [sizeL, List.length_cons]
    omega

/-- The size of an object body dominates its length. -/
theorem sizeM_ge_len : ∀ ms : List (List Char × JVal), ms.length + 1 ≤ sizeM ms := by
  intro ms
  induction ms with
  | nil => simp [sizeM]
  | cons m tl ih =>
    rcases m with ⟨k, v⟩
    have := sizeJ_pos v
    simp only [sizeM, List.length_cons]
    omega

/-- Array elements are smaller than the body containing them. -/
theorem sizeJ_lt_sizeL : ∀ (xs : List JVal) (y : JVal), y ∈ xs → sizeJ y < sizeL xs := by
  intro xs
  induction xs with
  | nil => intro y hy; cases hy
  | cons x tl ih =>
    intro y hy
    have h1 := sizeL_pos tl
    rcases List.mem_cons.1 hy with rfl | hy2
    · simp only [sizeL]; omega
    · have := ih y hy2
      simp only [sizeL]
      have := sizeJ_pos x
      omega

/-- Object values are smaller than the body containing them. -/
theorem sizeJ_lt_sizeM : ∀ (ms : List (List Char × JVal)) (m : List Char × JVal),
    m ∈ ms → sizeJ m.2 < sizeM ms := by
  intro ms
  induction ms with
  | nil => intro m hm; cases hm
  | cons m0 tl ih =>
    intro m hm
    rcases m0 with ⟨k0, v0⟩
    have h1 := sizeM_pos tl
    rcases List.mem_cons.1 hm with rfl | hm2
    · simp only [sizeM]; omega
    · have := ih m hm2
      simp only [sizeM]
      have := sizeJ_pos v0
      omega

/-- A list is a prefix of itself followed by anything. -/
theorem isPrefixOf_self_append (p r : Str) : p.isPrefixOf (p ++ r) = true := by
  rw [List.isPrefixOf_iff_prefix]
  exact List.prefix_append p r

/-- Scanning a serialized `null` consumes exactly it. -/
theorem parseVal_ser_null (f ind : Nat) (rest : Str) :
    parseVal (f + 1) (serVal ind JVal.null ++ rest) = .ok (JVal.null, rest) := by
  rw [show serVal ind JVal.null = S "null" from by simp [serVal]]
  rw [show S "null" ++ rest = 'n' :: ('u' :: 'l' :: 'l' :: rest) from rfl]
  simp only [parseVal]
  rw [skipWs_cons_not _ (by decide)]
  simp only []
  rw [if_neg (by decide), if_neg (by decide), if_neg (by decide), if_neg (by decide),
    if_neg (by decide), if_pos trivial]
  rw [show List.isPrefixOf (S "ull") ('u' :: 'l' :: 'l' :: rest) = true from
    isPrefixOf_self_append (S "ull") rest]
  simp [List.drop]

/-- Scanning a serialized `true` consumes exactly it. -/
theorem parseVal_ser_true (f ind : Nat) (rest : Str) :
    parseVal (f + 1) (serVal ind (JVal.bool true) ++ rest) = .ok (JVal.bool true, rest) := by
  rw [show serVal ind (JVal.bool true) = S "true" from by simp [serVal]]
  rw [show S "true" ++ rest = 't' :: ('r' :: 'u' :: 'e' :: rest) from rfl]
  simp only [parseVal]
  rw [skipWs_cons_not _ (by decide)]
  simp only []
  rw [if_neg (by decide), if_neg (by decide), if_neg (by decide), if_pos trivial]
  rw [show List.isPrefixOf (S "rue") ('r' :: 'u' :: 'e' :: rest) = true from
    isPrefixOf_self_append (S "rue") rest]
  simp [List.drop]

/-- Scanning a serialized `false` consumes exactly it. -/
theorem parseVal_ser_false (f ind : Nat) (rest : Str) :
    parseVal (f + 1) (serVal ind (JVal.bool false) ++ rest) = .ok (JVal.bool false, rest) := by
  rw [show serVal ind (JVal.bool false) = S "false" from by simp [serVal]]
  rw [show S "false" ++ rest = 'f' :: ('a' :: 'l' :: 's' :: 'e' :: rest) from rfl]
  simp only [parseVal]
  rw [skipWs_cons_not _ (by decide)]
  simp only []
  rw [if_neg (by decide), if_neg (by decide), if_neg (by decide), if_neg (by decide),
    if_pos trivial]
  rw [show List.isPrefixOf (S "alse") ('a' :: 'l' :: 's' :: 'e' :: rest) = true from
    isPrefixOf_self_append (S "alse") rest]
  simp [List.drop]

/-- Scanning a serialized string consumes exactly it. -/
theorem parseVal_ser_str (f ind : Nat) (s : List Char) (rest : Str) :
    parseVal (f + 1) (serVal ind (JVal.str s) ++ rest) = .ok (JVal.str s, rest) := by
  rw [show serVal ind (JVal.str s) = serStr s from by simp [serVal]]
  rw [serStr]
  rw [List.append_assoc, List.singleton_append, List.cons_append]
  simp only [parseVal]
  rw [skipWs_cons_not _ (by decide)]
  simp only []
  rw [if_neg (by decide), if_neg (by decide), if_pos trivial]
  rw [parseStrBody_ser]

/-- Scanning a serialized number consumes exactly it. -/
theorem parseVal_ser_num (f ind : Nat) (n : Int) (rest : Str) (hrest : restOk rest) :
    parseVal (f + 1) (serVal ind (JVal.num n) ++ rest) = .ok (JVal.num n, rest) := by
  rw [show serVal ind (JVal.num n) = serNum n from by simp [serVal]]
  by_cases hneg : n < 0
  · have hser : serNum n = '-' :: natRepr n.natAbs := by rw [serNum, if_pos hneg]
    rw [hser, List.cons_append]
    simp only [parseVal]
    rw [skipWs_cons_not _ (by decide)]
    simp only []
    rw [if_neg (by decide), if_neg (by decide), if_neg (by decide), if_neg (by decide),
      if_neg (by decide), if_neg (by decide)]
    rw [if_pos (Or.inl trivial)]
    rw [← List.cons_append, ← hser, parseNumAt_serNum n rest hrest]
  · have hser : serNum n = natRepr n.natAbs := by rw [serNum, if_neg hneg]
    have hex : ∃ c cs, natRepr n.natAbs = c :: cs ∧ c.isDigit = true := by
      by_cases h0 : n.natAbs = 0
      · exact ⟨'0', [], by rw [h0]; decide, by decide⟩
      · rcases natRepr_head n.natAbs n.natAbs le_rfl h0 with ⟨c, cs, heq, hdig, _, _⟩
        exact ⟨c, cs, heq, hdig⟩
    rcases hex with ⟨c, cs, heq, hdig⟩
    rw [hser, heq, List.cons_append]
    simp only [parseVal]
    rw [skipWs_cons_not _ (isDigit_not_ws hdig)]
    simp only []
    rw [if_neg (isDigit_ne hdig _ (by decide)), if_neg (isDigit_ne hdig _ (by decide)),
      if_neg (isDigit_ne hdig _ (by decide)), if_neg (isDigit_ne hdig _ (by decide)),
      if_neg (isDigit_ne hdig _ (by decide)), if_neg (isDigit_ne hdig _ (by decide)),
      if_pos (Or.inr hdig)]
    rw [← List.cons_append, ← heq, ← hser, parseNumAt_serNum n rest hrest]

/-- `skipWs` drops a whitespace head. -/
theorem skipWs_cons_ws (c : Char) (s : Str) (h : jsonWs c = true) :
    skipWs (c :: s) = skipWs s := by
  simp only [skipWs, h, if_true]

/-- `skipWs` over a newline and padding. -/
theorem skipWs_nl_pad (n : Nat) (s : Str) :
    skipWs ('\n' :: (pad n ++ s)) = skipWs s := by
  rw [skipWs_cons_ws _ _ (by decide), skipWs_pad]

/-- The serialized items of a nonempty array decompose into padding, the
first item, and the rest. -/
theorem serItems_decomp (ind : Nat) (x : JVal) (xs : List JVal) :
    serItems ind x xs = pad ind ++ (serVal ind x ++ serItemsRest ind xs) := by
  cases xs with
  | nil => simp [serItems, serItemsRest]
  | cons y tl => simp [serItems, serItemsRest, List.append_assoc]

/-- The serialized members of a nonempty object decompose into padding,
the first member, and the rest. -/
theorem serMembers_decomp (ind : Nat) (k : List Char) (v : JVal)
    (ms : List (List Char × JVal)) :
    serMembers ind (k, v) ms =
      pad ind ++ (serStr k ++ (':' :: ' ' :: (serVal ind v ++ serMembersRest ind ms))) := by
  cases ms with
  | nil => simp [serMembers, serMembersRest]
  | cons m2 tl => simp [serMembers, serMembersRest, List.append_assoc]

/-- The follower condition holds whenever the head is not a digit. -/
theorem restOk_cons {c : Char} (cs : Str) (h : c.isDigit = false) : restOk (c :: cs) := h

/-- Scanning serialized array items recovers them, for any item parser
that scans serialized values. -/
theorem parseItemsF_ser : ∀ (xs : List JVal) (x : JVal)
    (pv : Str → Except Str (JVal × Str)) (g ind indc : Nat) (rest w0 : Str),
    (∀ c ∈ w0, jsonWs c = true) →
    (∀ y, y ∈ x :: xs → ∀ (ind2 : Nat) (w rest2 : Str), (∀ c ∈ w, jsonWs c = true) →
      restOk rest2 → pv (w ++ (serVal ind2 y ++ rest2)) = .ok (y, rest2)) →
    xs.length < g →
    parseItemsF pv g
      (w0 ++ (serVal ind x ++ (serItemsRest ind xs ++ ('\n' :: (pad indc ++ (']' :: rest))))))
      = .ok (x :: xs, rest) := by
  intro xs
  induction xs with
  | nil =>
    intro x pv g ind indc rest w0 hw0 helem hg
    obtain ⟨h, rfl⟩ : ∃ h, g = h + 1 := ⟨g - 1, by omega⟩
    simp only [parseItemsF]
    rw [show serItemsRest ind ([] : List JVal) = [] from rfl, List.nil_append]
    rw [helem x (by simp) ind w0 ('\n' :: (pad indc ++ (']' :: rest))) hw0
      (restOk_cons _ (by decide))]
    simp only []
    rw [skipWs_nl_pad, skipWs_cons_not _ (by decide)]
    simp only []
    rw [if_neg (by decide), if_pos trivial]
  | cons y tl ih =>
    intro x pv g ind indc rest w0 hw0 helem hg
    obtain ⟨h, rfl⟩ : ∃ h, g = h + 1 := ⟨g - 1, by omega⟩
    simp only [parseItemsF]
    rw [show serItemsRest ind (y :: tl) = ',' :: '\n' :: serItems ind y tl from rfl]
    rw [show ((',' :: '\n' :: serItems ind y tl : Str) ++
        ('\n' :: (pad indc ++ (']' :: rest)))) =
      ',' :: '\n' :: (serItems ind y tl ++ ('\n' :: (pad indc ++ (']' :: rest)))) from by simp]
    rw [helem x (by simp) ind w0
      (',' :: '\n' :: (serItems ind y tl ++ ('\n' :: (pad indc ++ (']' :: rest)))))
      hw0 (restOk_cons _ (by decide))]
    simp only []
    rw [skipWs_cons_not _ (by decide)]
    simp only []
    rw [if_pos trivial]
    rw [show ('\n' :: (serItems ind y tl ++ ('\n' :: (pad indc ++ (']' :: rest)))) : Str) =
      ('\n' :: pad ind) ++ (serVal ind y ++ (serItemsRest ind tl ++
        ('\n' :: (pad indc ++ (']' :: rest))))) from by rw [serItems_decomp]; simp]
    rw [ih y pv h ind indc rest ('\n' :: pad ind)
      (by intro c hc
          rcases List.mem_cons.1 hc with rfl | hc2
          · decide
          · exact pad_ws ind c hc2)
      (fun z hz => helem z (List.mem_cons_of_mem _ hz))
      (by simp at hg ⊢; omega)]

/-- Scanning serialized object members recovers them, for any value
parser that scans serialized values. -/
theorem parseMembersF_ser : ∀ (ms : List (List Char × JVal)) (k : List Char) (v : JVal)
    (pv : Str → Except Str (JVal × Str)) (g ind indc : Nat) (rest w0 : Str),
    (∀ c ∈ w0, jsonWs c = true) →
    (∀ m, m ∈ (k, v) :: ms → ∀ (ind2 : Nat) (w rest2 : Str), (∀ c ∈ w, jsonWs c = true) →
      restOk rest2 → pv (w ++ (serVal ind2 m.2 ++ rest2)) = .ok (m.2, rest2)) →
    ms.length < g →
    parseMembersF pv g
      (w0 ++ (serStr k ++ (':' :: ' ' :: (serVal ind v ++
        (serMembersRest ind ms ++ ('\n' :: (pad indc ++ (rbrace :: rest))))))))
      = .ok ((k, v) :: ms, rest) := by
  intro ms
  induction ms with
  | nil =>
    intro k v pv g ind indc rest w0 hw0 helem hg
    obtain ⟨h, rfl⟩ : ∃ h, g = h + 1 := ⟨g - 1, by omega⟩
    simp only [parseMembersF]
    rw [show serMembersRest ind ([] : List (List Char × JVal)) = [] from rfl,
      List.nil_append]
    rw [skipWs_append _ _ hw0]
    rw [show (serStr k ++ (':' :: ' ' :: (serVal ind v ++
        ('\n' :: (pad indc ++ (rbrace :: rest))))) : Str) =
      '"' :: ((k.map escOut).flatten ++ ('"' :: (':' :: ' ' :: (serVal ind v ++
        ('\n' :: (pad indc ++ (rbrace :: rest))))))) from by rw [serStr]; simp]
    rw [skipWs_cons_not _ (by decide)]
    simp only []
    rw [parseStrBody_ser]
    simp only []
    rw [skipWs_cons_not _ (by decide)]
    simp only []
    rw [show (' ' :: (serVal ind v ++ ('\n' :: (pad indc ++ (rbrace :: rest)))) : Str) =
      [' '] ++ (serVal ind v ++ ('\n' :: (pad indc ++ (rbrace :: rest)))) from rfl]
    rw [helem (k, v) (by simp) ind [' ']
      ('\n' :: (pad indc ++ (rbrace :: rest))) (by decide) (restOk_cons _ (by decide))]
    simp only []
    rw [skipWs_nl_pad, skipWs_cons_not _ (by decide)]
    simp only []
    rw [if_neg (by decide), if_pos trivial]
  | cons m2 tl ih =>
    intro k v pv g ind indc rest w0 hw0 helem hg
    obtain ⟨h, rfl⟩ : ∃ h, g = h + 1 := ⟨g - 1, by omega⟩
    obtain ⟨k2, v2⟩ := m2
    simp only [parseMembersF]
    rw [show serMembersRest ind ((k2, v2) :: tl) =
      ',' :: '\n' :: serMembers ind (k2, v2) tl from rfl]
    rw [skipWs_append _ _ hw0]
    rw [show (serStr k ++ (':' :: ' ' :: (serVal ind v ++
        ((',' :: '\n' :: serMembers ind (k2, v2) tl) ++
          ('\n' :: (pad indc ++ (rbrace :: rest)))))) : Str) =
      '"' :: ((k.map escOut).flatten ++ ('"' :: (':' :: ' ' :: (serVal ind v ++
        (',' :: '\n' :: (serMembers ind (k2, v2) tl ++
          ('\n' :: (pad indc ++ (rbrace :: rest))))))))) from by rw [serStr]; simp]
    rw [skipWs_cons_not _ (by decide)]
    simp only []
    rw [parseStrBody_ser]
    simp only []
    rw [skipWs_cons_not _ (by decide)]
    simp only []
    rw [show (' ' :: (serVal ind v ++ (',' :: '\n' :: (serMembers ind (k2, v2) tl ++
        ('\n' :: (pad indc ++ (rbrace :: rest)))))) : Str) =
      [' '] ++ (serVal ind v ++ (',' :: '\n' :: (serMembers ind (k2, v2) tl ++
        ('\n' :: (pad indc ++ (rbrace :: rest)))))) from rfl]
    rw [helem (k, v) (by simp) ind [' ']
      (',' :: '\n' :: (serMembers ind (k2, v2) tl ++
        ('\n' :: (pad indc ++ (rbrace :: rest))))) (by decide) (restOk_cons _ (by decide))]
    simp only []
    rw [skipWs_cons_not _ (by decide)]
    simp only []
    rw [if_pos trivial]
    rw [show ('\n' :: (serMembers ind (k2, v2) tl ++
        ('\n' :: (pad indc ++ (rbrace :: rest)))) : Str) =
      ('\n' :: pad ind) ++ (serStr k2 ++ (':' :: ' ' :: (serVal ind v2 ++
        (serMembersRest ind tl ++ ('\n' :: (pad indc ++ (rbrace :: rest))))))) from by
      rw [serMembers_decomp]; simp]
    rw [ih k2 v2 pv h ind indc rest ('\n' :: pad ind)
      (by intro c hc
          rcases List.mem_cons.1 hc with rfl | hc2
          · decide
          · exact pad_ws ind c hc2)
      (fun z hz => helem z (List.mem_cons_of_mem _ hz))
      (by simp at hg ⊢; omega)]

/-- Scanning any serialized value with enough fuel recovers the value
and leaves the follower untouched. -/
theorem parseVal_serVal : ∀ (N : Nat) (v : JVal), sizeJ v ≤ N →
    ∀ (ind f : Nat) (rest : Str), sizeJ v ≤ f → restOk rest →
      parseVal f (serVal ind v ++ rest) = .ok (v, rest) := by
  intro N
  induction N using Nat.strong_induction_on with
  | _ N IH =>
    intro v hN ind f rest hf hrest
    obtain ⟨f2, rfl⟩ : ∃ g, f = g + 1 := ⟨f - 1, by have := sizeJ_pos v; omega⟩
    cases v with
    | null => exact parseVal_ser_null f2 ind rest
    | bool b =>
      cases b with
      | true => exact parseVal_ser_true f2 ind rest
      | false => exact parseVal_ser_false f2 ind rest
    | num n => exact parseVal_ser_num f2 ind n rest hrest
    | str s => exact parseVal_ser_str f2 ind s rest
    | arr xs =>
      cases xs with
      | nil =>
        rw [show serVal ind (JVal.arr []) = S "[]" from by simp [serVal]]
        rw [show S "[]" ++ rest = '[' :: (']' :: rest) from rfl]
        simp only [parseVal]
        rw [skipWs_cons_not _ (by decide)]
        simp only []
        rw [if_neg (by decide), if_pos trivial]
        rw [skipWs_cons_not _ (by decide)]
        simp only []
        rw [if_pos trivial]
      | cons x tl =>
        have hsz : sizeJ (JVal.arr (x :: tl)) = 1 + sizeL (x :: tl) := by simp [sizeJ]
        have hszL : sizeL (x :: tl) = 1 + sizeJ x + sizeL tl := by simp [sizeL]
        have hlenL := sizeL_ge_len tl
        have helem : ∀ y, y ∈ x :: tl → ∀ (ind2 : Nat) (w rest2 : Str),
            (∀ c ∈ w, jsonWs c = true) → restOk rest2 →
            parseVal f2 (w ++ (serVal ind2 y ++ rest2)) = .ok (y, rest2) := by
          intro y hy ind2 w rest2 hw hr2
          have hylt : sizeJ y < sizeL (x :: tl) := sizeJ_lt_sizeL (x :: tl) y hy
          rw [parseVal_ws f2 w _ hw]
          exact IH (sizeJ y) (by omega) y le_rfl ind2 f2 rest2 (by omega) hr2
        rw [show serVal ind (JVal.arr (x :: tl)) =
          '[' :: '\n' :: (serItems (ind + 2) x tl ++ '\n' :: (pad ind ++ [']']))
          from by simp [serVal]]
        rw [List.cons_append, List.cons_append]
        simp only [parseVal]
        rw [skipWs_cons_not _ (by decide)]
        simp only []
        rw [if_neg (by decide), if_pos trivial]
        rcases serVal_cons (ind + 2) x with ⟨c, cs, hc, hcw, hcne⟩
        have hskip : skipWs ('\n' :: ((serItems (ind + 2) x tl ++
            '\n' :: (pad ind ++ [']'])) ++ rest)) =
            c :: (cs ++ (serItemsRest (ind + 2) tl ++ ('\n' :: (pad ind ++ (']' :: rest))))) := by
          rw [skipWs_cons_ws _ _ (by decide)]
          rw [serItems_decomp]
          rw [show ((pad (ind + 2) ++ (serVal (ind + 2) x ++ serItemsRest (ind + 2) tl)) ++
              '\n' :: (pad ind ++ [']'])) ++ rest =
            pad (ind + 2) ++ (serVal (ind + 2) x ++ (serItemsRest (ind + 2) tl ++
              ('\n' :: (pad ind ++ (']' :: rest))))) from by simp]
          rw [skipWs_pad, hc, List.cons_append]
          rw [skipWs_cons_not _ hcw]
        rw [hskip]
        simp only []
        rw [if_neg hcne]
        rw [show (c :: (cs ++ (serItemsRest (ind + 2) tl ++
            ('\n' :: (pad ind ++ (']' :: rest))))) : Str) =
          [] ++ (serVal (ind + 2) x ++ (serItemsRest (ind + 2) tl ++
            ('\n' :: (pad ind ++ (']' :: rest))))) from by rw [hc]; simp]
        rw [parseItemsF_ser tl x (parseVal f2) f2 (ind + 2) ind rest []
          (by simp) helem (by omega)]
    | obj ms =>
      cases ms with
      | nil =>
        rw [show serVal ind (JVal.obj []) = [lbrace, rbrace] from by simp [serVal]]
        rw [show ([lbrace, rbrace] : Str) ++ rest = lbrace :: (rbrace :: rest) from rfl]
        simp only [parseVal]
        rw [skipWs_cons_not _ (by decide)]
        simp only []
        first
          | rw [if_pos trivial]
          | rw [if_pos rfl]
        rw [skipWs_cons_not _ (by decide)]
        simp only []
        first
          | rw [if_pos trivial]
          | rw [if_pos rfl]
      | cons m ms2 =>
        obtain ⟨k, v⟩ := m
        have hsz : sizeJ (JVal.obj ((k, v) :: ms2)) = 1 + sizeM ((k, v) :: ms2) := by
          simp [sizeJ]
        have hszM : sizeM ((k, v) :: ms2) = 1 + sizeJ v + sizeM ms2 := by simp [sizeM]
        have hlenM := sizeM_ge_len ms2
        have helem : ∀ m2, m2 ∈ (k, v) :: ms2 → ∀ (ind2 : Nat) (w rest2 : Str),
            (∀ c ∈ w, jsonWs c = true) → restOk rest2 →
            parseVal f2 (w ++ (serVal ind2 m2.2 ++ rest2)) = .ok (m2.2, rest2) := by
          intro m2 hm2 ind2 w rest2 hw hr2
          have hvlt : sizeJ m2.2 < sizeM ((k, v) :: ms2) :=
            sizeJ_lt_sizeM ((k, v) :: ms2) m2 hm2
          rw [parseVal_ws f2 w _ hw]
          exact IH (sizeJ m2.2) (by omega) m2.2 le_rfl ind2 f2 rest2 (by omega) hr2
        rw [show serVal ind (JVal.obj ((k, v) :: ms2)) =
          lbrace :: '\n' :: (serMembers (ind + 2) (k, v) ms2 ++ '\n' :: (pad ind ++ [rbrace]))
          from by simp [serVal]]
        rw [List.cons_append, List.cons_append]
        simp only [parseVal]
        rw [skipWs_cons_not _ (by decide)]
        simp only []
        first
          | rw [if_pos trivial]
          | rw [if_pos rfl]
        have hskip : skipWs ('\n' :: ((serMembers (ind + 2) (k, v) ms2 ++
            '\n' :: (pad ind ++ [rbrace])) ++ rest)) =
            '"' :: ((k.map escOut).flatten ++ ('"' :: (':' :: ' ' :: (serVal (ind + 2) v ++
              (serMembersRest (ind + 2) ms2 ++ ('\n' :: (pad ind ++ (rbrace :: rest)))))))) := by
          rw [skipWs_cons_ws _ _ (by decide)]
          rw [serMembers_decomp]
          rw [show ((pad (ind + 2) ++ (serStr k ++ (':' :: ' ' :: (serVal (ind + 2) v ++
              serMembersRest (ind + 2) ms2)))) ++ '\n' :: (pad ind ++ [rbrace])) ++ rest =
            pad (ind + 2) ++ (serStr k ++ (':' :: ' ' :: (serVal (ind + 2) v ++
              (serMembersRest (ind + 2) ms2 ++ ('\n' :: (pad ind ++ (rbrace :: rest)))))))
            from by simp]
          rw [skipWs_pad]
          rw [show (serStr k ++ (':' :: ' ' :: (serVal (ind + 2) v ++
              (serMembersRest (ind + 2) ms2 ++ ('\n' :: (pad ind ++ (rbrace :: rest)))))) : Str) =
            '"' :: ((k.map escOut).flatten ++ ('"' :: (':' :: ' ' :: (serVal (ind + 2) v ++
              (serMembersRest (ind + 2) ms2 ++ ('\n' :: (pad ind ++ (rbrace :: rest))))))))
            from by rw [serStr]; simp]
          rw [skipWs_cons_not _ (by decide)]
        rw [hskip]
        simp only []
        rw [if_neg (by decide)]
        rw [show ('"' :: ((k.map escOut).flatten ++ ('"' :: (':' :: ' ' :: (serVal (ind + 2) v ++
            (serMembersRest (ind + 2) ms2 ++ ('\n' :: (pad ind ++ (rbrace :: rest)))))))) : Str) =
          [] ++ (serStr k ++ (':' :: ' ' :: (serVal (ind + 2) v ++
            (serMembersRest (ind + 2) ms2 ++ ('\n' :: (pad ind ++ (rbrace :: rest)))))))
          from by rw [serStr]; simp]
        rw [parseMembersF_ser ms2 k v (parseVal f2) f2 (ind + 2) ind rest []
          (by simp) helem (by omega)]

/-- The size of an array body is bounded by its serialization length
plus two, given the bound for its elements. -/
theorem sizeL_le_serItems_len : ∀ (xs : List JVal) (x : JVal) (ind : Nat),
    (∀ y ∈ x :: xs, ∀ ind2 : Nat, sizeJ y ≤ (serVal ind2 y).length) →
    sizeL (x :: xs) ≤ (serItems ind x xs).length + 2 := by
  intro xs
  induction xs with
  | nil =>
    intro x ind helem
    have hx := helem x (by simp) ind
    have h1 : sizeL [x] = 1 + sizeJ x + 1 := by simp [sizeL]
    have h2 : (serItems ind x []).length = ind + (serVal ind x).length := by
      simp [serItems, pad]
    omega
  | cons y tl ih =>
    intro x ind helem
    have hx := helem x (by simp) ind
    have hih := ih y ind (fun z hz ind2 => helem z (List.mem_cons_of_mem _ hz) ind2)
    have h1 : sizeL (x :: y :: tl) = 1 + sizeJ x + sizeL (y :: tl) := by simp [sizeL]
    have h2 : (serItems ind x (y :: tl)).length =
        ind + (serVal ind x).length + 2 + (serItems ind y tl).length := by
      simp [serItems, pad]
      omega
    omega

/-- The size of an object body is bounded by its serialization length
plus two, given the bound for its values. -/
theorem sizeM_le_serMembers_len : ∀ (ms : List (List Char × JVal)) (k : List Char)
    (v : JVal) (ind : Nat),
    (∀ m ∈ (k, v) :: ms, ∀ ind2 : Nat, sizeJ m.2 ≤ (serVal ind2 m.2).length) →
    sizeM ((k, v) :: ms) ≤ (serMembers ind (k, v) ms).length + 2 := by
  intro ms
  induction ms with
  | nil =>
    intro k v ind helem
    have hv := helem (k, v) (by simp) ind
    have h1 : sizeM [(k, v)] = 1 + sizeJ v + 1 := by simp [sizeM]
    have h2 : (serMembers ind (k, v) []).length =
        ind + (serStr k).length + 2 + (serVal ind v).length := by
      simp [serMembers, pad]
      omega
    simp only [] at hv
    omega
  | cons m2 tl ih =>
    intro k v ind helem
    obtain ⟨k2, v2⟩ := m2
    have hv := helem (k, v) (by simp) ind
    have hih := ih k2 v2 ind (fun z hz ind2 => helem z (List.mem_cons_of_mem _ hz) ind2)
    have h1 : sizeM ((k, v) :: (k2, v2) :: tl) = 1 + sizeJ v + sizeM ((k2, v2) :: tl) := by
      simp [sizeM]
    have h2 : (serMembers ind (k, v) ((k2, v2) :: tl)).length =
        ind + (serStr k).length + 2 + (serVal ind v).length + 2 +
          (serMembers ind (k2, v2) tl).length := by
      simp [serMembers, pad]
      omega
    simp only [] at hv
    omega

/-- Serializing never takes fewer characters than the node count. -/
theorem sizeJ_le_serVal_len : ∀ (N : Nat) (v : JVal), sizeJ v ≤ N → ∀ ind : Nat,
    sizeJ v ≤ (serVal ind v).length := by
  intro N
  induction N using Nat.strong_induction_on with
  | _ N IH =>
    intro v hN ind
    cases v with
    | null =>
      rcases serVal_cons ind JVal.null with ⟨c, cs, hc, _, _⟩
      rw [hc]
      simp [sizeJ]
    | bool b =>
      rcases serVal_cons ind (JVal.bool b) with ⟨c, cs, hc, _, _⟩
      rw [hc]
      cases b <;> simp [sizeJ]
    | num n =>
      rcases serVal_cons ind (JVal.num n) with ⟨c, cs, hc, _, _⟩
      rw [hc]
      simp [sizeJ]
    | str s =>
      rcases serVal_cons ind (JVal.str s) with ⟨c, cs, hc, _, _⟩
      rw [hc]
      simp [sizeJ]
    | arr xs =>
      cases xs with
      | nil =>
        rw [show serVal ind (JVal.arr []) = S "[]" from by simp [serVal]]
        rw [show sizeJ (JVal.arr []) = 2 from by simp [sizeJ, sizeL]]
        decide
      | cons x tl =>
        have helem : ∀ y ∈ x :: tl, ∀ ind2 : Nat, sizeJ y ≤ (serVal ind2 y).length := by
          intro y hy ind2
          have hylt : sizeJ y < sizeL (x :: tl) := sizeJ_lt_sizeL (x :: tl) y hy
          have hsz : sizeJ (JVal.arr (x :: tl)) = 1 + sizeL (x :: tl) := by simp [sizeJ]
          exact IH (sizeJ y) (by omega) y le_rfl ind2
        have hbody := sizeL_le_serItems_len tl x (ind + 2) helem
        have hsz : sizeJ (JVal.arr (x :: tl)) = 1 + sizeL (x :: tl) := by simp [sizeJ]
        have hlen : (serVal ind (JVal.arr (x :: tl))).length =
            2 + (serItems (ind + 2) x tl).length + 2 + ind := by
          rw [show serVal ind (JVal.arr (x :: tl)) =
            '[' :: '\n' :: (serItems (ind + 2) x tl ++ '\n' :: (pad ind ++ [']']))
            from by simp [serVal]]
          simp [pad]
          omega
        omega
    | obj ms =>
      cases ms with
      | nil =>
        rw [show serVal ind (JVal.obj []) = [lbrace, rbrace] from by simp [serVal]]
        rw [show sizeJ (JVal.obj []) = 2 from by simp [sizeJ, sizeM]]
        decide
      | cons m ms2 =>
        obtain ⟨k, v⟩ := m
        have helem : ∀ m2 ∈ (k, v) :: ms2, ∀ ind2 : Nat,
            sizeJ m2.2 ≤ (serVal ind2 m2.2).length := by
          intro m2 hm2 ind2
          have hvlt : sizeJ m2.2 < sizeM ((k, v) :: ms2) :=
            sizeJ_lt_sizeM ((k, v) :: ms2) m2 hm2
          have hsz : sizeJ (JVal.obj ((k, v) :: ms2)) = 1 + sizeM ((k, v) :: ms2) := by
            simp [sizeJ]
          exact IH (sizeJ m2.2) (by omega) m2.2 le_rfl ind2
        have hbody := sizeM_le_serMembers_len ms2 k v (ind + 2) helem
        have hsz : sizeJ (JVal.obj ((k, v) :: ms2)) = 1 + sizeM ((k, v) :: ms2) := by
          simp [sizeJ]
        have hlen : (serVal ind (JVal.obj ((k, v) :: ms2))).length =
            2 + (serMembers (ind + 2) (k, v) ms2).length + 2 + ind := by
          rw [show serVal ind (JVal.obj ((k, v) :: ms2)) =
            lbrace :: '\n' :: (serMembers (ind + 2) (k, v) ms2 ++
              '\n' :: (pad ind ++ [rbrace])) from by simp [serVal]]
          simp [pad]
          omega
        omega

/-- Round trip: re-parsing a two-space-indented serialization yields the
serialized value back. -/
theorem json_loads_dumps (v : JVal) : json_loads (dumps v) = .ok v := by
  rw [json_loads, dumps]
  have hlen : sizeJ v ≤ (serVal 0 v).length + 1 := by
    have := sizeJ_le_serVal_len (sizeJ v) v le_rfl 0
    omega
  have hparse := parseVal_serVal (sizeJ v) v le_rfl 0 ((serVal 0 v).length + 1) []
    hlen trivial
  rw [List.append_nil] at hparse
  rw [hparse]
  rfl

/-! ## Claim theorems -/

/-- C1 (counterexample): on the input `<root><child>text</child>` the XML
fixer's output does NOT both begin with an XML declaration and end with
`</root>`: the trailing `</child>` already matches the closing-tag
pattern `</\w+>$`, so no closing root tag is appended. -/
theorem claim_C1_counterexample :
    ((S "<?xml").isPrefixOf (fix_xml (S "<root><child>text</child>")) &&
     (S "</root>").isSuffixOf (fix_xml (S "<root><child>text</child>"))) = false := by
  decide

/-- C1 (amended): on the input `<root><child>text</child>` the XML fixer
returns a string that begins with an XML declaration and ends with
`</child>`; the document is returned otherwise unchanged after the
declaration, since its trailing text already ends with a closing-tag
pattern. -/
theorem claim_C1_amended :
    fix_xml (S "<root><child>text</child>") =
      S "<?xml version=\"1.0\" encoding=\"UTF-8\"?>\n<root><child>text</child>" ∧
    (S "<?xml version=\"1.0\" encoding=\"UTF-8\"?>").isPrefixOf
      (fix_xml (S "<root><child>text</child>")) = true ∧
    (S "</child>").isSuffixOf (fix_xml (S "<root><child>text</child>")) = true := by
  refine ⟨by decide, by decide, by decide⟩

/-- C2: each of the three validators is a total boolean function of the
content; it returns `True` exactly when the (modelled) parser succeeds
and `False` exactly when the parser fails, for every input string — the
parse failure is caught and converted, never propagated. -/
theorem claim_C2 :
    ∀ content : Str,
      (validate_json content = true ↔ ∃ v, json_loads content = Except.ok v) ∧
      (validate_json content = false ↔ ∃ e, json_loads content = Except.error e) ∧
      (∀ (α : Type) (safe_load : Str → Except Str α),
        (validate_yaml safe_load content = true ↔ ∃ v, safe_load content = Except.ok v) ∧
        (validate_yaml safe_load content = false ↔ ∃ e, safe_load content = Except.error e)) ∧
      (∀ (β : Type) (fromstring : Str → Except Str β),
        (validate_xml fromstring content = true ↔ ∃ v, fromstring content = Except.ok v) ∧
        (validate_xml fromstring content = false ↔ ∃ e, fromstring content = Except.error e)) := by
  intro content
  refine ⟨?_, ?_, fun α sl => ⟨?_, ?_⟩, fun β fs => ⟨?_, ?_⟩⟩
  · cases hh : json_loads content <;> simp [validate_json, hh]
  · cases hh : json_loads content <;> simp [validate_json, hh]
  · cases hh : sl content <;> simp [validate_yaml, hh]
  · cases hh : sl content <;> simp [validate_yaml, hh]
  · cases hh : fs content <;> simp [validate_xml, hh]
  · cases hh : fs content <;> simp [validate_xml, hh]

/-- C3: for every input string the JSON fixer either returns a string
accepted by the JSON validator — the two-space-indented re-serialization
of what the comma-patched text parses to — or fails with the
cannot-auto-fix error carrying the underlying parse error; the branch is
decided by whether the patched text re-parses, so there is no third
outcome. -/
theorem claim_C3 :
    ∀ content : Str,
      (∃ s, fix_json content = Except.ok s ∧ validate_json s = true) ∨
      (∃ e, fix_json content = Except.error (S "Cannot auto-fix JSON: " ++ e) ∧
        json_loads (commaSub (replCRLF (remove_unicode_symbols content))) =
          Except.error e) := by
  intro content
  cases h : json_loads (commaSub (replCRLF (remove_unicode_symbols content))) with
  | error e =>
    right
    exact ⟨e, by simp only [fix_json, h], rfl⟩
  | ok v =>
    left
    refine ⟨dumps v, by simp only [fix_json, h], ?_⟩
    simp only [validate_json, json_loads_dumps v]

/-- C4 (counterexample): the input `\x7b"a": [1, 2] "b": 3\x7d` is a JSON
document missing exactly one comma between two sibling key-value pairs
(its manual correction is valid JSON), yet the fixer raises the
cannot-auto-fix error instead of producing parseable content: the
comma-insertion lookbehind requires a digit, quote or literal character
and the first value ends with `]`. -/
theorem claim_C4_counterexample :
    validate_json (S "\x7b\"a\": [1, 2], \"b\": 3\x7d") = true ∧
    fix_json (S "\x7b\"a\": [1, 2] \"b\": 3\x7d") =
      Except.error (S "Cannot auto-fix JSON: Expecting comma delimiter") := by
  exact ⟨rfl, rfl⟩

/-- C4 (amended): on the spec's own example `\x7b"a": 1 "b": 2\x7d` — a
document missing one comma where the preceding value ends in a character
of the lookbehind class and the following key is nonempty — the fixer
succeeds and its output parses to the same value as the manually
corrected `\x7b"a": 1, "b": 2\x7d`. -/
theorem claim_C4_amended :
    fix_json (S "\x7b\"a\": 1 \"b\": 2\x7d") =
      Except.ok (S "\x7b\n  \"a\": 1,\n  \"b\": 2\n\x7d") ∧
    json_loads (S "\x7b\n  \"a\": 1,\n  \"b\": 2\n\x7d") =
      json_loads (S "\x7b\"a\": 1, \"b\": 2\x7d") ∧
    validate_json (S "\x7b\n  \"a\": 1,\n  \"b\": 2\n\x7d") = true := by
  have hparse :
      json_loads (commaSub (replCRLF (remove_unicode_symbols (S "\x7b\"a\": 1 \"b\": 2\x7d")))) =
        Except.ok (JVal.obj [(S "a", JVal.num 1), (S "b", JVal.num 2)]) := rfl
  refine ⟨?_, rfl, rfl⟩
  simp only [fix_json, hparse]
  simp [dumps, serVal, serMembers, serStr, serNum, natRepr, natReprF, pad, escOut, S]
  decide

/-- C5: the array-wrap operation returns the input unchanged when it
parses to an array, returns the two-space-indented serialization of the
singleton array on any other parsed value, and returns the input
unchanged when parsing fails. -/
theorem claim_C5 :
    ∀ content : Str,
      (∀ xs, json_loads content = Except.ok (JVal.arr xs) →
        wrap_json_in_array content = content) ∧
      (∀ v, json_loads content = Except.ok v → isArr v = false →
        wrap_json_in_array content = dumps (JVal.arr [v])) ∧
      (∀ e, json_loads content = Except.error e →
        wrap_json_in_array content = content) := by
  intro content
  refine ⟨fun xs h => ?_, fun v h hv => ?_, fun e h => ?_⟩
  · simp [wrap_json_in_array, h]
  · simp only [wrap_json_in_array, h]
    cases v <;> simp_all [isArr]
  · simp [wrap_json_in_array, h]

/-- C5 (witness): the three cases of the array-wrap contract realized on
concrete inputs. -/
theorem claim_C5_witness :
    wrap_json_in_array (S "[ 1 ]") = S "[ 1 ]" ∧
    wrap_json_in_array (S "1") = S "[\n  1\n]" ∧
    wrap_json_in_array (S "oops") = S "oops" := by
  refine ⟨?_, ?_, ?_⟩
  · exact (claim_C5 (S "[ 1 ]")).1 [JVal.num 1] rfl
  · have hw := (claim_C5 (S "1")).2.1 (JVal.num 1) rfl rfl
    rw [hw]
    simp [dumps, serVal, serItems, serNum, natRepr, natReprF, pad, S]
  · exact (claim_C5 (S "oops")).2.2 (S "Expecting value") rfl

/-- C6 (counterexample): for the path `a.yml` the detector returns the
string `yml`, which is not one of `json`, `yaml`, `xml`; the claimed
three-valued output set is wrong. -/
theorem claim_C6_counterexample :
    detect_file_type (S "a.yml") (S "") = S "yml" ∧
    decide (S "yml" ∈ [S "json", S "yaml", S "xml"]) = false := by
  exact ⟨rfl, by decide⟩

/-- C6 (amended): the detector always returns one of `json`, `yaml`,
`yml`, `xml`; a known extension decides the result without consulting
the file content; `.yaml` maps to `yaml` while `.yml` maps to `yml`
(both of which the orchestrator dispatches to the YAML handler). -/
theorem claim_C6_amended :
    ∀ (file_path fileContent : Str),
      (detect_file_type file_path fileContent = S "json" ∨
       detect_file_type file_path fileContent = S "yaml" ∨
       detect_file_type file_path fileContent = S "yml" ∨
       detect_file_type file_path fileContent = S "xml") ∧
      (pyLower (splitext file_path).2 ∈ [S ".json", S ".yaml", S ".yml", S ".xml"] →
        ∀ fileContent2, detect_file_type file_path fileContent =
          detect_file_type file_path fileContent2) ∧
      (pyLower (splitext file_path).2 = S ".yaml" →
        detect_file_type file_path fileContent = S "yaml") ∧
      (pyLower (splitext file_path).2 = S ".yml" →
        detect_file_type file_path fileContent = S "yml") := by
  intro file_path fileContent
  refine ⟨?_, fun hmem fc2 => ?_, fun hy => ?_, fun hy => ?_⟩
  · by_cases hmem : pyLower (splitext file_path).2 ∈ [S ".json", S ".yaml", S ".yml", S ".xml"]
    · simp only [detect_file_type, if_pos hmem]
      simp only [List.mem_cons, List.not_mem_nil, or_false] at hmem
      rcases hmem with h | h | h | h
      · rw [h]; left; decide
      · rw [h]; right; left; decide
      · rw [h]; right; right; left; decide
      · rw [h]; right; right; right; decide
    · simp only [detect_file_type, if_neg hmem]
      split
      · left; rfl
      · split
        · right; right; right; rfl
        · right; left; rfl
  · simp only [detect_file_type, if_pos hmem]
  · simp only [detect_file_type, hy]
    rw [if_pos (show (S ".yaml" : Str) ∈ [S ".json", S ".yaml", S ".yml", S ".xml"] by decide)]
    decide
  · simp only [detect_file_type, hy]
    rw [if_pos (show (S ".yml" : Str) ∈ [S ".json", S ".yaml", S ".yml", S ".xml"] by decide)]
    decide

/-- C6 (witness): the amended detector contract at concrete paths. -/
theorem claim_C6_amended_witness :
    detect_file_type (S "x.YAML") (S "") = S "yaml" ∧
    detect_file_type (S "b.yml") (S "") = S "yml" ∧
    detect_file_type (S "b.yml") (S "") = detect_file_type (S "b.yml") (S "zzz") := by
  refine ⟨?_, ?_, ?_⟩
  · exact (claim_C6_amended (S "x.YAML") (S "")).2.2.1 (by decide)
  · exact (claim_C6_amended (S "b.yml") (S "")).2.2.2 (by decide)
  · exact (claim_C6_amended (S "b.yml") (S "")).2.1 (by decide) (S "zzz")

/-- C7: for any document with a blank line and a tab-indented line, the
YAML fixer's output has no tab characters; splitting it yields exactly
the nonblank input lines with tabs replaced — hence no blank lines; and
the tab replacement turns each tab into exactly four spaces (spaces gain
four per tab, tabs vanish, the length grows by three per tab). -/
theorem claim_C7 (content : Str)
    (hblank : ∃ l ∈ pySplitlines (remove_unicode_symbols content), pyStrip l = [])
    (htab : ∃ l ∈ pySplitlines (remove_unicode_symbols content),
      '\t' ∈ l ∧ pyStrip l ≠ []) :
    (fix_yaml content).count '\t' = 0 ∧
    pySplitlines (fix_yaml content) =
      (pySplitlines (remove_unicode_symbols content)).filterMap
        (fun l => if pyStrip l = [] then none else some (tabTo4 l)) ∧
    (∀ l ∈ pySplitlines (fix_yaml content), pyStrip l ≠ []) ∧
    (∀ l : Str, (tabTo4 l).count ' ' = l.count ' ' + 4 * l.count '\t' ∧
      (tabTo4 l).count '\t' = 0 ∧ (tabTo4 l).length = l.length + 3 * l.count '\t') := by
  have hmemgo : ∀ m ∈ fixYamlGo (pySplitlines (remove_unicode_symbols content)),
      ∃ l ∈ pySplitlines (remove_unicode_symbols content), pyStrip l ≠ [] ∧ m = tabTo4 l :=
    fun m hm => mem_fixYamlGo _ m hm
  have hnotab : (fix_yaml content).count '\t' = 0 := by
    rw [List.count_eq_zero]
    intro hmem
    rcases mem_sjoin ['\n'] _ '\t' hmem with ⟨m, hm, htm⟩ | hsep
    · rcases hmemgo m hm with ⟨l, _, _, rfl⟩
      exact absurd htm (List.count_eq_zero.1 (tabTo4_counts l).2.1)
    · simp at hsep
  have hsplit : pySplitlines (fix_yaml content) =
      fixYamlGo (pySplitlines (remove_unicode_symbols content)) := by
    cases hgo : fixYamlGo (pySplitlines (remove_unicode_symbols content)) with
    | nil =>
      rw [fix_yaml, hgo]
      rfl
    | cons m tl =>
      rw [fix_yaml, hgo, pySplitlines]
      apply pySplitlinesF_join
      · intro l hl
        rw [← hgo] at hl
        rcases hmemgo l hl with ⟨l0, hl0, hst, rfl⟩
        refine ⟨tabTo4_ne_nil l0 (fun he => hst (by rw [he]; rfl)), ?_⟩
        exact tabTo4_no_break l0
          (fun c hc => pySplitlines_no_break _ _ l0 hl0 c hc)
      · omega
  refine ⟨hnotab, ?_, ?_, tabTo4_counts⟩
  · rw [hsplit, fixYamlGo_eq_filterMap]
  · intro l hl
    rw [hsplit] at hl
    rcases hmemgo l hl with ⟨l0, _, hst, rfl⟩
    exact tabTo4_strip_ne l0 hst

/-- C7 (witness): a concrete document with a blank line and a
tab-indented line, fixed to a tab-free, blank-free output. -/
theorem claim_C7_witness :
    (fix_yaml (S "a: 1\n\n\tb: 2\n")).count '\t' = 0 ∧
    fix_yaml (S "a: 1\n\n\tb: 2\n") = S "a: 1\n    b: 2" := by
  refine ⟨(claim_C7 (S "a: 1\n\n\tb: 2\n") ?_ ?_).1, by decide⟩
  · exact ⟨[], by decide, rfl⟩
  · exact ⟨S "\tb: 2", by decide, by decide, by decide⟩

/-- C8: whenever the unified diff of original and fixed is empty, the
preview step answers `False` — the do-not-save decision — independently
of whatever the user would have typed, so no file can be written. -/
theorem claim_C8 (original fixed userInput : Str)
    (h : unifiedDiff (pySplitlines original) (pySplitlines fixed) = []) :
    preview_diff_and_confirm original fixed userInput = false :=
  preview_false_of_diff_empty original fixed userInput h

/-- C8 (witness): equal contents give an empty diff and a `False`
decision even for a `y` answer. -/
theorem claim_C8_witness :
    unifiedDiff (pySplitlines (S "x")) (pySplitlines (S "x")) = [] ∧
    preview_diff_and_confirm (S "x") (S "x") (S "y") = false :=
  ⟨by decide, claim_C8 (S "x") (S "x") (S "y") (by decide)⟩

/-- C9: the writer's output path for `sample.json` is exactly
`sample_fixed.json`; in general the output path is six characters longer
than the original and therefore never equal to it, so the source file is
never overwritten. -/
theorem claim_C9 :
    save_fixed_file_path (S "sample.json") = S "sample_fixed.json" ∧
    ∀ p : Str, (save_fixed_file_path p).length = p.length + 6 ∧
      (save_fixed_file_path p == p) = false := by
  refine ⟨by decide, fun p => ?_⟩
  have hsplit := congrArg List.length (splitext_append p)
  have hlen : (save_fixed_file_path p).length = p.length + 6 := by
    simp only [save_fixed_file_path, List.length_append] at hsplit ⊢
    simp [S]
    omega
  refine ⟨hlen, ?_⟩
  rw [beq_eq_false_iff_ne]
  intro hEq
  have := congrArg List.length hEq
  omega

/-- C10: contents that split into the same lines produce an empty diff
even when the strings themselves differ (e.g. by a trailing newline), so
the preview reports no differences and answers `False` for any user
input. -/
theorem claim_C10 (original fixed userInput : Str)
    (hlines : pySplitlines original = pySplitlines fixed)
    (hne : (original == fixed) = false) :
    preview_diff_and_confirm original fixed userInput = false := by
  apply preview_false_of_diff_empty
  simp [unifiedDiff, hlines]

/-- C10 (witness): `"a\n"` and `"a"` differ textually but have equal
line splits; the preview declines to save even on a `y` answer. -/
theorem claim_C10_witness :
    pySplitlines (S "a\n") = pySplitlines (S "a") ∧
    ((S "a\n" : Str) == S "a") = false ∧
    preview_diff_and_confirm (S "a\n") (S "a") (S "y") = false :=
  ⟨by decide, by decide, claim_C10 (S "a\n") (S "a") (S "y") (by decide) (by decide)⟩

end XJYV
